import Mathlib

/-!
Verification of the tensor-network circuit core (`tensorcircuit/circuit.py`).

The circuit is embedded shallowly: a `Node` is a named tensor whose axes are
identified by global edge ids; a `Circuit` holds the append-only node list,
the list of connected edge pairs, the per-qubit `front` edge list and a
fresh-id counter used to allocate edge ids.  Contraction (performed in the
source by the external `tensornetwork` library, whose exact contraction is
order-invariant) is modelled by its mathematical value: a sum over all
assignments of index values to edges, where connected pairs must agree and
surviving front edges are fixed to the requested basis values.
-/

namespace TensorCircuit

/-- Kinds of synchronous Python failures surfaced by the circuit operations:
`ValueError` (bad constructor argument), `AssertionError` (a failed
`assert`), `IndexError` (list or edge index out of range). -/
inductive PyErr : Type
  | valueError
  | assertionError
  | indexError
deriving DecidableEq, Repr

/-- A tensor-network node: a tensor of rank `dims.length` (entry gives the
value at a multi-index, one value per axis) whose axes carry global edge
ids, one per axis, listed in axis order. -/
structure Node (α : Type) where
  name : String
  dims : List Nat
  entry : List Nat → α
  edges : List Nat

/-- The circuit aggregate from `Circuit.__init__`: qubit count, the ordered
node list, the connected edge pairs, the per-qubit dangling front edges and
a counter from which fresh edge ids are allocated. -/
structure Circuit (α : Type) where
  nqubits : Nat
  nodes : List (Node α)
  pairs : List (Nat × Nat)
  front : List Nat
  nextEdge : Nat

/-- A gate handed to the application entry points: an opaque tensor with a
fixed rank and per-axis dimensions (the node wrapping it is built with
fresh edges at call time, as `tn.Node` does). -/
structure GateSpec (α : Type) where
  dims : List Nat
  entry : List Nat → α

variable {α : Type}

/-- Point update of an edge assignment. -/
def upd (b : Nat → Nat) (e v : Nat) : Nat → Nat := fun x => if x = e then v else b x

/-- Sum of `f` over all assignments that extend `b` on the listed edges,
each edge ranging over its dimension. -/
def sumAssign [AddCommMonoid α] : List (Nat × Nat) → ((Nat → Nat) → α) → (Nat → Nat) → α
  | [], f, b => f b
  | (e, d) :: es, f, b => (Finset.range d).sum (fun v => sumAssign es f (upd b e v))

/-- The `(edge id, dimension)` list of one node, in axis order. -/
def edgesOf (nd : Node α) : List (Nat × Nat) := nd.edges.zip nd.dims

/-- All `(edge id, dimension)` entries of a node list. -/
def allEdgeDims (nodes : List (Node α)) : List (Nat × Nat) := (nodes.map edgesOf).flatten

/-- Product of all node entries under an edge assignment. -/
def prodEntries [CommMonoid α] (nodes : List (Node α)) (a : Nat → Nat) : α :=
  (nodes.map (fun nd => nd.entry (nd.edges.map a))).prod

/-- Every connected pair of edges carries equal index values. -/
def pairsOk (ps : List (Nat × Nat)) (a : Nat → Nat) : Prop :=
  ∀ p ∈ ps, a p.1 = a p.2

instance (ps : List (Nat × Nat)) (a : Nat → Nat) : Decidable (pairsOk ps a) :=
  inferInstanceAs (Decidable (∀ p ∈ ps, a p.1 = a p.2))

/-- Value of the contracted network with the output edges `outs` fixed to
the basis values `bs`: sum over all edge assignments in which connected
pairs agree and the outputs match, of the product of all tensor entries.
With `outs = [] , bs = []` this is the full contraction of a closed
network to a scalar. -/
def netTensor [CommSemiring α] (nodes : List (Node α)) (ps : List (Nat × Nat))
    (outs : List Nat) (bs : List Nat) : α :=
  sumAssign (allEdgeDims nodes)
    (fun a => if pairsOk ps a ∧ outs.map a = bs then prodEntries nodes a else 0)
    (fun _ => 0)

/-- The boundary tensor entry: the vector `(1, 0)` along axis 0 (the
remaining axes of the numpy arrays `[[1.],[0]]` and `[[[1.]],[[0]]]` have
dimension 1). -/
def unitEntry [Zero α] [One α] : List Nat → α :=
  fun ix => if ix.head? = some 0 then 1 else 0

/-- Boundary node `k` of an `n`-qubit circuit. Endpoints hold the shape
`(2,1)` array `[[1.],[0]]`; interior qubits hold the shape `(2,1,1)` array
`[[[1.]],[[0]]]`.  Node `k` owns the edge ids `3k, 3k+1(, 3k+2)`, axis 0
first. -/
def bNode [Zero α] [One α] (n k : Nat) : Node α :=
  if k = 0 ∨ k = n - 1 then
    { name := "qb-" ++ toString k, dims := [2, 1], entry := unitEntry,
      edges := [3 * k, 3 * k + 1] }
  else
    { name := "qb-" ++ toString k, dims := [2, 1, 1], entry := unitEntry,
      edges := [3 * k, 3 * k + 1, 3 * k + 2] }

/-- The boundary nodes created by `Circuit.__init__`, in qubit order
(end node, interior nodes, end node). -/
def initNodes [Zero α] [One α] (n : Nat) : List (Node α) :=
  (List.range n).map (bNode n)

/-- The routing-chain connections made by `Circuit.__init__`: interior
nodes are chained `nodes[i].edge 2 -- nodes[i+1].edge 1` for
`i = 1 .. n-3`, and the end nodes are wired to their neighbours
(`nodes[0].edge 1 -- nodes[1].edge 1`, and for `n ≥ 3` also
`nodes[n-1].edge 1 -- nodes[n-2].edge 2`). -/
def initPairs (n : Nat) : List (Nat × Nat) :=
  ((List.range (n - 3)).map (fun j => (3 * (j + 1) + 2, 3 * (j + 2) + 1))) ++
    (if n < 3 then [(1, 4)]
     else [(1, 4), (3 * (n - 1) + 1, 3 * (n - 2) + 2)])

/-- The freshly constructed circuit for `n ≥ 2`: boundary nodes, routing
chain, `front[k] = ` edge 0 of node `k`. -/
def initC [Zero α] [One α] (n : Nat) : Circuit α :=
  { nqubits := n, nodes := initNodes n, pairs := initPairs n,
    front := (List.range n).map (fun k => 3 * k), nextEdge := 3 * n }

/-- `Circuit.__init__`: raises `ValueError` when `nqubits < 2`, otherwise
builds the boundary network. -/
def initCircuit [Zero α] [One α] (n : Nat) : Except PyErr (Circuit α) :=
  if n < 2 then .error .valueError else .ok (initC n)

/-- The node wrapping a gate tensor, with fresh edge ids
`base, base+1, ...`, one per axis. -/
def mkGate (g : GateSpec α) (base : Nat) : Node α :=
  { name := "gate", dims := g.dims, entry := g.entry,
    edges := (List.range g.dims.length).map (fun j => base + j) }

/-- Python list indexing: negative indices count from the end; a
translated index outside `0 .. len-1` is an `IndexError` (`none`). -/
def pyIdx (len : Nat) (i : Int) : Option Nat :=
  let j := if i < 0 then i + len else i
  if 0 ≤ j ∧ j < (len : Int) then some j.toNat else none

/-- The loop body of `apply_general_gate`: for each position `i` (with
target `ind`), connect gate edge `i` to `front[ind]`, then set
`front[ind]` to gate edge `i + noe`.  Failures (`get_edge` or `front`
indexing) abort at the point they occur in the source, keeping the
mutations already made. -/
def agLoop (gE : List Nat) (noe : Nat) :
    List Int → Nat → List Nat → List (Nat × Nat) →
    (List Nat × List (Nat × Nat)) × Option PyErr
  | [], _, front, ps => ((front, ps), none)
  | ind :: rest, i, front, ps =>
    match gE.get? i with
    | none => ((front, ps), some .indexError)
    | some ein =>
      match pyIdx front.length ind with
      | none => ((front, ps), some .indexError)
      | some j =>
        let ps1 := ps ++ [(ein, front.getD j 0)]
        match gE.get? (i + noe) with
        | none => ((front, ps1), some .indexError)
        | some eout => agLoop gE noe rest (i + 1) (front.set j eout) ps1

/-- `Circuit.apply_general_gate`: assert the supplied targets are pairwise
distinct, then rewire edge by edge and finally append the gate node.  The
returned circuit is the state at return or at the raise point (the gate
node's edge ids are allocated in either case). -/
def apply_general_gate (c : Circuit α) (g : GateSpec α) (index : List Int) :
    Circuit α × Option PyErr :=
  let gn := mkGate g c.nextEdge
  let c1 : Circuit α := { c with nextEdge := c.nextEdge + g.dims.length }
  if index.Nodup then
    match agLoop gn.edges index.length index 0 c.front c.pairs with
    | ((front1, ps1), none) =>
        ({ c1 with nodes := c.nodes ++ [gn], front := front1, pairs := ps1 }, none)
    | ((front1, ps1), some e) =>
        ({ c1 with front := front1, pairs := ps1 }, some e)
  else (c1, some .assertionError)

/-- `Circuit.apply_single_gate`: connect gate edge 0 to `front[index]`,
set `front[index]` to gate edge 1, append the gate node. -/
def apply_single_gate (c : Circuit α) (g : GateSpec α) (i : Int) :
    Circuit α × Option PyErr :=
  let gn := mkGate g c.nextEdge
  let c1 : Circuit α := { c with nextEdge := c.nextEdge + g.dims.length }
  match gn.edges.get? 0 with
  | none => (c1, some .indexError)
  | some e0 =>
    match pyIdx c.front.length i with
    | none => (c1, some .indexError)
    | some j =>
      let ps1 := c.pairs ++ [(e0, c.front.getD j 0)]
      match gn.edges.get? 1 with
      | none => ({ c1 with pairs := ps1 }, some .indexError)
      | some e1 =>
          ({ c1 with pairs := ps1, front := c.front.set j e1,
                     nodes := c.nodes ++ [gn] }, none)

/-- `Circuit.apply_double_gate`: assert `index1 != index2`, connect gate
edges 0 and 1 to the two fronts, then set the fronts to gate edges 2 and
3, append the gate node. -/
def apply_double_gate (c : Circuit α) (g : GateSpec α) (i1 i2 : Int) :
    Circuit α × Option PyErr :=
  let gn := mkGate g c.nextEdge
  let c1 : Circuit α := { c with nextEdge := c.nextEdge + g.dims.length }
  if i1 = i2 then (c1, some .assertionError)
  else
    match gn.edges.get? 0 with
    | none => (c1, some .indexError)
    | some e0 =>
      match pyIdx c.front.length i1 with
      | none => (c1, some .indexError)
      | some j1 =>
        let ps1 := c.pairs ++ [(e0, c.front.getD j1 0)]
        match gn.edges.get? 1 with
        | none => ({ c1 with pairs := ps1 }, some .indexError)
        | some e1 =>
          match pyIdx c.front.length i2 with
          | none => ({ c1 with pairs := ps1 }, some .indexError)
          | some j2 =>
            let ps2 := ps1 ++ [(e1, c.front.getD j2 0)]
            match gn.edges.get? 2 with
            | none => ({ c1 with pairs := ps2 }, some .indexError)
            | some e2 =>
              match gn.edges.get? 3 with
              | none => ({ c1 with pairs := ps2,
                                   front := c.front.set j1 e2 }, some .indexError)
              | some e3 =>
                  ({ c1 with pairs := ps2,
                             front := (c.front.set j1 e2).set j2 e3,
                             nodes := c.nodes ++ [gn] }, none)

/-- Shift all edge ids of a node by `k`. -/
def shiftNode (k : Nat) (nd : Node α) : Node α :=
  { nd with edges := nd.edges.map (fun e => e + k) }

/-- `Circuit._copy`: a deep copy of the node/edge graph.  The copy is an
isomorphic network over fresh edge ids (shifted past every live id) with
the translated front list; its own fresh counter starts past its ids. -/
def copyCircuit (c : Circuit α) : Circuit α :=
  { nqubits := c.nqubits,
    nodes := c.nodes.map (shiftNode c.nextEdge),
    pairs := c.pairs.map (fun p => (p.1 + c.nextEdge, p.2 + c.nextEdge)),
    front := c.front.map (fun e => e + c.nextEdge),
    nextEdge := 2 * c.nextEdge }

/-- Big-endian binary expansion of `j` on `n` bits (qubit 0 is the most
significant, matching the row-major reshape of the contracted tensor whose
axes follow `front` order). -/
def bitsOf (n j : Nat) : List Nat :=
  (List.range n).map (fun i => j / 2 ^ (n - 1 - i) % 2)

/-- The index whose big-endian binary expansion is `bs`. -/
def toIdx : List Nat → Nat
  | [] => 0
  | b :: bs => b * 2 ^ bs.length + toIdx bs

/-- The value of the live network contracted against basis values `bs` on
the front edges. -/
def stateAt [CommSemiring α] (c : Circuit α) (bs : List Nat) : α :=
  netTensor c.nodes c.pairs c.front bs

/-- `Circuit.wavefunction`: deep-copy the network, contract it with the
copied front edges as surviving outputs (in qubit order) and flatten
row-major to the `2 ^ nqubits` amplitudes. -/
def wavefunction [CommSemiring α] (c : Circuit α) : List α :=
  (List.range (2 ^ c.nqubits)).map (fun j =>
    netTensor (copyCircuit c).nodes (copyCircuit c).pairs (copyCircuit c).front
      (bitsOf c.nqubits j))

/-- The bit denoted by a character (`'1'` maps to 1, anything else to 0;
only applied to `'0'`/`'1'`). -/
def charBit (ch : Char) : Nat := if ch = '1' then 1 else 0

/-- A rank-1 measurement projector node for character position `i`:
the basis vector selecting `bit` (`(1,0)` for bit 0, `(0,1)` for bit 1),
on the single fresh edge `base`. -/
def mkMeasure [Zero α] [One α] (i bit base : Nat) : Node α :=
  { name := toString i ++ "-measure", dims := [2],
    entry := fun ix => if ix.head? = some bit then 1 else 0,
    edges := [base] }

/-- The measurement projector nodes built by `Circuit.amplitude`: one
rank-1 node per `'0'`/`'1'` character (value `(1,0)` resp. `(0,1)`),
other characters produce no node; `i` numbers the characters, edge ids are
allocated sequentially from `base` in creation order. -/
def measureNodes [Zero α] [One α] : List Char → Nat → Nat → List (Node α)
  | [], _, _ => []
  | ch :: rest, i, base =>
    if ch = '1' then mkMeasure i 1 base :: measureNodes rest (i + 1) (base + 1)
    else if ch = '0' then mkMeasure i 0 base :: measureNodes rest (i + 1) (base + 1)
    else measureNodes rest (i + 1) base

/-- `Circuit.amplitude`: assert the bitstring length matches, deep-copy
the network, attach one projector per character to the copied front edges
and contract the closed network to a scalar.  When some character is not
`'0'`/`'1'` the projector list is short and the wiring loop raises
`IndexError` (it also would were the copied front list shorter than the
bitstring); the live network is untouched either way. -/
def amplitude [CommSemiring α] (c : Circuit α) (l : List Char) : Except PyErr α :=
  if l.length ≠ c.nqubits then .error .assertionError
  else
    let cc := copyCircuit c
    let ms : List (Node α) := measureNodes l 0 cc.nextEdge
    if ms.length < l.length ∨ cc.front.length < l.length then .error .indexError
    else
      .ok (netTensor (cc.nodes ++ ms)
        (cc.pairs ++ cc.front.zip (ms.map (fun m => m.edges.headD 0))) [] [])

/-- Structural well-formedness of a circuit state: `front` has one entry
per qubit, its entries are pairwise distinct, every edge id in use is
below the fresh counter, and every front edge is a dangling edge of some
node. -/
def Inv (c : Circuit α) : Prop :=
  c.front.length = c.nqubits ∧ c.front.Nodup ∧
  (∀ e ∈ c.front, e < c.nextEdge) ∧
  (∀ nd ∈ c.nodes, ∀ e ∈ nd.edges, e < c.nextEdge) ∧
  (∀ p ∈ c.pairs, p.1 < c.nextEdge ∧ p.2 < c.nextEdge) ∧
  (∀ e ∈ c.front, ∃ nd ∈ c.nodes, e ∈ nd.edges) ∧
  (∀ e ∈ c.front, ∀ p ∈ c.pairs, e ≠ p.1 ∧ e ≠ p.2)

/-- Circuit states reachable by construction followed by successful gate
applications: fresh gate nodes of rank `2k` applied through
`apply_general_gate` to `k` pairwise-distinct in-range qubits. -/
inductive Reachable [Zero α] [One α] : Circuit α → Prop
  | base (n : Nat) (h : 2 ≤ n) : Reachable (initC n)
  | step (c : Circuit α) (g : GateSpec α) (qs : List Nat)
      (hr : Reachable c) (hnd : qs.Nodup) (hq : ∀ q ∈ qs, q < c.nqubits)
      (hg : g.dims.length = 2 * qs.length) :
      Reachable (apply_general_gate c g (qs.map Int.ofNat)).1

/-- A NOT-like single-qubit gate tensor (rank 2). -/
def xGate : GateSpec Int :=
  { dims := [2, 2],
    entry := fun ix => if ix = [0, 1] ∨ ix = [1, 0] then 1 else 0 }

/-- A controlled-NOT-like two-qubit gate tensor (rank 4). -/
def cnotGate : GateSpec Int :=
  { dims := [2, 2, 2, 2],
    entry := fun ix =>
      if ix = [0, 0, 0, 0] ∨ ix = [0, 1, 0, 1] ∨ ix = [1, 0, 1, 1] ∨ ix = [1, 1, 1, 0]
      then 1 else 0 }

/-! ### Basic facts about assignments and `sumAssign` -/

theorem upd_self (b : Nat → Nat) (e v : Nat) : upd b e v e = v := by
  simp [upd]

theorem upd_ne (b : Nat → Nat) (e v x : Nat) (h : x ≠ e) : upd b e v x = b x := by
  simp [upd, h]

theorem sumAssign_nil [AddCommMonoid α] (f : (Nat → Nat) → α) (b : Nat → Nat) :
    sumAssign [] f b = f b := rfl

theorem sumAssign_cons [AddCommMonoid α] (e d : Nat) (es : List (Nat × Nat))
    (f : (Nat → Nat) → α) (b : Nat → Nat) :
    sumAssign ((e, d) :: es) f b =
      (Finset.range d).sum (fun v => sumAssign es f (upd b e v)) := rfl

/-- `sumAssign` only evaluates `f` at assignments that agree with the base
off the listed edges. -/
theorem sumAssign_congr [AddCommMonoid α] {f g : (Nat → Nat) → α} :
    ∀ (es : List (Nat × Nat)) (b : Nat → Nat),
      (∀ a : Nat → Nat, (∀ x, x ∉ es.map Prod.fst → a x = b x) → f a = g a) →
      sumAssign es f b = sumAssign es g b
  | [], b, h => h b (fun _ _ => rfl)
  | (e, d) :: es, b, h => by
    simp only [sumAssign_cons]
    refine Finset.sum_congr rfl (fun v _ => ?_)
    refine sumAssign_congr es (upd b e v) (fun a ha => h a (fun x hx => ?_))
    simp only [List.map_cons, List.mem_cons, not_or] at hx
    rcases hx with ⟨hx1, hx2⟩
    rw [ha x hx2, upd_ne _ _ _ _ hx1]

theorem sumAssign_ext [AddCommMonoid α] {f g : (Nat → Nat) → α}
    (es : List (Nat × Nat)) (b : Nat → Nat) (h : ∀ a, f a = g a) :
    sumAssign es f b = sumAssign es g b := by
  have : f = g := funext h
  rw [this]

theorem sumAssign_append [AddCommMonoid α] (f : (Nat → Nat) → α) :
    ∀ (es1 es2 : List (Nat × Nat)) (b : Nat → Nat),
      sumAssign (es1 ++ es2) f b = sumAssign es1 (fun b1 => sumAssign es2 f b1) b
  | [], es2, b => rfl
  | (e, d) :: es1, es2, b => by
    simp only [List.cons_append, sumAssign_cons]
    exact Finset.sum_congr rfl (fun v _ => sumAssign_append f es1 es2 (upd b e v))

/-- A dimension-1 edge is forced to the value 0. -/
theorem sumAssign_dim_one [AddCommMonoid α] (e : Nat) (es : List (Nat × Nat))
    (f : (Nat → Nat) → α) (b : Nat → Nat) :
    sumAssign ((e, 1) :: es) f b = sumAssign es f (upd b e 0) := by
  simp [sumAssign_cons]

theorem sumAssign_const_mul [NonUnitalNonAssocSemiring α] (k : α) :
    ∀ (es : List (Nat × Nat)) (f : (Nat → Nat) → α) (b : Nat → Nat),
      sumAssign es (fun a => k * f a) b = k * sumAssign es f b
  | [], f, b => rfl
  | (e, d) :: es, f, b => by
    simp only [sumAssign_cons, Finset.mul_sum]
    exact Finset.sum_congr rfl (fun v _ => sumAssign_const_mul k es f (upd b e v))

/-- Reindexing a sum over shifted edge ids: summing a function that reads
its assignment through the shift equals summing the original over the
original edges. -/
theorem sumAssign_shift [AddCommMonoid α] (k : Nat) (F : (Nat → Nat) → α) :
    ∀ (es : List (Nat × Nat)) (b : Nat → Nat),
      sumAssign (es.map (fun p => (p.1 + k, p.2))) (fun a => F (fun x => a (x + k))) b =
        sumAssign es F (fun x => b (x + k))
  | [], b => rfl
  | (e, d) :: es, b => by
    simp only [List.map_cons, sumAssign_cons]
    refine Finset.sum_congr rfl (fun v _ => ?_)
    rw [sumAssign_shift k F es (upd b (e + k) v)]
    congr 1
    funext x
    simp only [upd]
    by_cases hx : x = e
    · simp [hx]
    · simp [hx, fun h => hx (Nat.add_right_cancel h)]

/-! ### The deep copy is an isomorphic renaming: contraction is unchanged -/

theorem edgesOf_shiftNode (k : Nat) (nd : Node α) :
    edgesOf (shiftNode k nd) = (edgesOf nd).map (fun p => (p.1 + k, p.2)) := by
  show (nd.edges.map (fun e => e + k)).zip nd.dims =
    (nd.edges.zip nd.dims).map (fun p => (p.1 + k, p.2))
  rw [List.zip_map_left]
  rfl

theorem allEdgeDims_shift (k : Nat) (nodes : List (Node α)) :
    allEdgeDims (nodes.map (shiftNode k)) =
      (allEdgeDims nodes).map (fun p => (p.1 + k, p.2)) := by
  simp only [allEdgeDims, List.map_map, List.map_flatten]
  congr 1
  exact List.map_congr_left (fun nd _ => edgesOf_shiftNode k nd)

theorem prodEntries_shift [CommMonoid α] (k : Nat) (nodes : List (Node α))
    (a : Nat → Nat) :
    prodEntries (nodes.map (shiftNode k)) a = prodEntries nodes (fun x => a (x + k)) := by
  simp only [prodEntries, List.map_map]
  congr 1
  refine List.map_congr_left (fun nd _ => ?_)
  show nd.entry ((nd.edges.map (fun e => e + k)).map a) = _
  rw [List.map_map]
  rfl

theorem pairsOk_shift (k : Nat) (ps : List (Nat × Nat)) (a : Nat → Nat) :
    pairsOk (ps.map (fun p => (p.1 + k, p.2 + k))) a ↔ pairsOk ps (fun x => a (x + k)) := by
  constructor
  · intro h p hp
    exact h (p.1 + k, p.2 + k) (List.mem_map_of_mem _ hp)
  · intro h p hp
    rcases List.mem_map.mp hp with ⟨q, hq, rfl⟩
    exact h q hq

/-- Contracting the shifted copy of a network gives the same value as
contracting the original. -/
theorem netTensor_shift [CommSemiring α] (k : Nat) (nodes : List (Node α))
    (ps : List (Nat × Nat)) (outs : List Nat) (bs : List Nat) :
    netTensor (nodes.map (shiftNode k)) (ps.map (fun p => (p.1 + k, p.2 + k)))
        (outs.map (fun e => e + k)) bs =
      netTensor nodes ps outs bs := by
  have h1 : ∀ a : Nat → Nat,
      (if pairsOk (ps.map (fun p => (p.1 + k, p.2 + k))) a ∧
          (outs.map (fun e => e + k)).map a = bs then
        prodEntries (nodes.map (shiftNode k)) a else 0)
      = (fun a1 : Nat → Nat =>
          if pairsOk ps a1 ∧ outs.map a1 = bs then prodEntries nodes a1 else 0)
          (fun x => a (x + k)) := by
    intro a
    rw [prodEntries_shift]
    refine if_congr (and_congr (pairsOk_shift k ps a) ?_) rfl rfl
    rw [List.map_map]
    rfl
  unfold netTensor
  rw [allEdgeDims_shift]
  refine Eq.trans (sumAssign_ext _ _ h1) ?_
  exact sumAssign_shift k
    (fun a1 : Nat → Nat =>
      if pairsOk ps a1 ∧ outs.map a1 = bs then prodEntries nodes a1 else 0)
    (allEdgeDims nodes) (fun _ => 0)

/-- `wavefunction` computes the live network's contraction values: the
deep copy changes nothing about the result. -/
theorem wavefunction_eq_stateAt [CommSemiring α] (c : Circuit α) :
    wavefunction c =
      (List.range (2 ^ c.nqubits)).map (fun j => stateAt c (bitsOf c.nqubits j)) := by
  unfold wavefunction stateAt
  refine List.map_congr_left (fun j _ => ?_)
  exact netTensor_shift c.nextEdge c.nodes c.pairs c.front (bitsOf c.nqubits j)

/-- `wavefunction` is insensitive to the fresh-edge counter. -/
theorem wavefunction_nextEdge [CommSemiring α] (c : Circuit α) (m : Nat) :
    wavefunction { c with nextEdge := m } = wavefunction c := by
  rw [wavefunction_eq_stateAt, wavefunction_eq_stateAt]
  rfl

/-! ### Big-endian binary expansions -/

theorem div_pow_mod_two (j n d : Nat) (hd : d + 1 ≤ n) :
    j / 2 ^ d % 2 = j % 2 ^ n / 2 ^ d % 2 := by
  conv_lhs => rw [← Nat.div_add_mod j (2 ^ n)]
  have h2 : 2 ^ n * (j / 2 ^ n) = 2 ^ d * (2 ^ (n - d) * (j / 2 ^ n)) := by
    rw [← Nat.mul_assoc, ← pow_add]
    congr 2
    omega
  rw [h2, Nat.mul_add_div (pow_pos (by norm_num : (0:ℕ) < 2) d)]
  have h3 : 2 ^ (n - d) * (j / 2 ^ n) = 2 * (2 ^ (n - d - 1) * (j / 2 ^ n)) := by
    rw [← Nat.mul_assoc, ← pow_succ']
    congr 2
    omega
  rw [h3, Nat.mul_add_mod]

theorem bitsOf_succ (n j : Nat) :
    bitsOf (n + 1) j = (j / 2 ^ n % 2) :: bitsOf n (j % 2 ^ n) := by
  unfold bitsOf
  rw [List.range_succ_eq_map, List.map_cons, List.map_map]
  refine List.cons_eq_cons.mpr ⟨?_, ?_⟩
  · show j / 2 ^ (n + 1 - 1 - 0) % 2 = j / 2 ^ n % 2
    norm_num
  · refine List.map_congr_left (fun i hi => ?_)
    have hi' : i < n := List.mem_range.mp hi
    show j / 2 ^ (n + 1 - 1 - (i + 1)) % 2 = j % 2 ^ n / 2 ^ (n - 1 - i) % 2
    have he : n + 1 - 1 - (i + 1) = n - 1 - i := by omega
    rw [he]
    exact div_pow_mod_two j n (n - 1 - i) (by omega)

theorem length_bitsOf (n j : Nat) : (bitsOf n j).length = n := by
  simp [bitsOf]

theorem bitsOf_zero (n : Nat) : bitsOf n 0 = List.replicate n 0 := by
  rw [List.eq_replicate_iff]
  refine ⟨length_bitsOf n 0, fun b hb => ?_⟩
  rcases List.mem_map.mp hb with ⟨i, _, rfl⟩
  simp

theorem toIdx_replicate_zero (n : Nat) : toIdx (List.replicate n 0) = 0 := by
  induction n with
  | zero => rfl
  | succ m ih => simp [List.replicate_succ, toIdx, ih]

theorem toIdx_lt : ∀ (bs : List Nat), (∀ x ∈ bs, x < 2) → toIdx bs < 2 ^ bs.length
  | [], _ => by simp [toIdx]
  | b :: bs, h => by
    have hb : b < 2 := h b (List.mem_cons_self b bs)
    have ih := toIdx_lt bs (fun x hx => h x (List.mem_cons_of_mem _ hx))
    have hple : b * 2 ^ bs.length ≤ 2 ^ bs.length := by
      calc b * 2 ^ bs.length ≤ 1 * 2 ^ bs.length :=
            Nat.mul_le_mul_right _ (by omega)
        _ = 2 ^ bs.length := one_mul _
    have hp : (2:ℕ) ^ (bs.length + 1) = 2 ^ bs.length + 2 ^ bs.length := by
      rw [pow_succ]
      omega
    simp only [toIdx, List.length_cons, hp]
    omega

theorem bitsOf_toIdx : ∀ (bs : List Nat), (∀ x ∈ bs, x < 2) →
    bitsOf bs.length (toIdx bs) = bs
  | [], _ => rfl
  | b :: bs, h => by
    have hb : b < 2 := h b (List.mem_cons_self b bs)
    have hlt := toIdx_lt bs (fun x hx => h x (List.mem_cons_of_mem _ hx))
    have hcomm : toIdx (b :: bs) = toIdx bs + 2 ^ bs.length * b := by
      simp only [toIdx]
      ring
    simp only [List.length_cons]
    rw [bitsOf_succ, hcomm]
    rw [Nat.add_mul_div_left _ _ (pow_pos (by norm_num : (0:ℕ) < 2) _)]
    rw [Nat.div_eq_of_lt hlt, Nat.add_mul_mod_self_left, Nat.mod_eq_of_lt hlt]
    rw [bitsOf_toIdx bs (fun x hx => h x (List.mem_cons_of_mem _ hx))]
    congr 1
    omega

theorem toIdx_bitsOf : ∀ (n j : Nat), j < 2 ^ n → toIdx (bitsOf n j) = j
  | 0, j, h => by
    have : j = 0 := by simpa using h
    simp [this, bitsOf, toIdx]
  | n + 1, j, h => by
    rw [bitsOf_succ]
    simp only [toIdx, length_bitsOf]
    rw [toIdx_bitsOf n (j % 2 ^ n) (Nat.mod_lt _ (pow_pos (by norm_num) n))]
    have hq : j / 2 ^ n < 2 := by
      rw [Nat.div_lt_iff_lt_mul (pow_pos (by norm_num) n)]
      calc j < 2 ^ (n + 1) := h
        _ = 2 * 2 ^ n := by rw [pow_succ']
        _ = 2 * 2 ^ n := rfl
    rw [Nat.mod_eq_of_lt hq]
    calc j / 2 ^ n * 2 ^ n + j % 2 ^ n = 2 ^ n * (j / 2 ^ n) + j % 2 ^ n := by ring_nf
      _ = j := Nat.div_add_mod j (2 ^ n)

theorem bitsOf_eq_replicate_iff (n j : Nat) (h : j < 2 ^ n) :
    bitsOf n j = List.replicate n 0 ↔ j = 0 := by
  constructor
  · intro he
    have := toIdx_bitsOf n j h
    rw [he, toIdx_replicate_zero] at this
    omega
  · intro hj
    rw [hj]
    exact bitsOf_zero n

theorem getD_map_range {β : Type} (m j : Nat) (d : β) (f : Nat → β) (h : j < m) :
    ((List.range m).map f).getD j d = f j := by
  rw [List.getD_eq_getElem?_getD, List.getElem?_map, List.getElem?_range h]
  rfl

/-! ### Contraction of the freshly constructed boundary chain -/

theorem map_range_eq_iff {β : Type} (f : Nat → β) (d : β) (bs : List β) (n : Nat) :
    (List.range n).map f = bs ↔ (bs.length = n ∧ ∀ k, k < n → bs.getD k d = f k) := by
  constructor
  · intro h
    constructor
    · rw [← h]
      simp
    · intro k hk
      rw [← h]
      exact getD_map_range n k d f hk
  · rintro ⟨hlen, hval⟩
    refine List.ext_getElem (by simpa using hlen.symm) (fun i h1 h2 => ?_)
    have h1' : i < n := by simpa using h1
    have := hval i h1'
    rw [List.getD_eq_getElem?_getD, List.getElem?_eq_getElem h2] at this
    simp only [List.getElem_map, List.getElem_range]
    exact this.symm

theorem eq_replicate_zero_iff (bs : List Nat) (n : Nat) :
    bs = List.replicate n 0 ↔ (bs.length = n ∧ ∀ k, k < n → bs.getD k 0 = 0) := by
  constructor
  · intro h
    subst h
    refine ⟨List.length_replicate n 0, fun k hk => ?_⟩
    rw [List.getD_eq_getElem?_getD, List.getElem?_replicate, if_pos hk]
    rfl
  · rintro ⟨hlen, hval⟩
    refine List.ext_getElem (by simpa using hlen) (fun i h1 h2 => ?_)
    have h1' : i < n := by simpa [hlen] using h1
    have := hval i h1'
    rw [List.getD_eq_getElem?_getD, List.getElem?_eq_getElem h1] at this
    simpa using this

/-- Every routing-pair member is a dimension-1 bond edge id: not a front
edge (`3k`), in range, and not one of the two ids that the endpoint nodes
do not carry (`2` and `3(n-1)+2`). -/
theorem initPairs_mem (n : Nat) (hn : 2 ≤ n) :
    ∀ p ∈ initPairs n,
      (p.1 % 3 ≠ 0 ∧ p.1 < 3 * n ∧ p.1 ≠ 2 ∧ p.1 ≠ 3 * (n - 1) + 2) ∧
      (p.2 % 3 ≠ 0 ∧ p.2 < 3 * n ∧ p.2 ≠ 2 ∧ p.2 ≠ 3 * (n - 1) + 2) := by
  intro p hp
  unfold initPairs at hp
  rcases List.mem_append.mp hp with h | h
  · rcases List.mem_map.mp h with ⟨j, hj, rfl⟩
    have hj' : j < n - 3 := List.mem_range.mp hj
    constructor
    · refine ⟨?_, ?_, ?_, ?_⟩ <;> omega
    · refine ⟨?_, ?_, ?_, ?_⟩ <;> omega
  · by_cases h3 : n < 3
    · rw [if_pos h3] at h
      have : p = (1, 4) := by simpa using h
      subst this
      constructor
      · refine ⟨?_, ?_, ?_, ?_⟩ <;> omega
      · refine ⟨?_, ?_, ?_, ?_⟩ <;> omega
    · rw [if_neg h3] at h
      simp only [List.mem_cons, List.mem_singleton] at h
      rcases h with rfl | h
      · constructor
        · refine ⟨?_, ?_, ?_, ?_⟩ <;> omega
        · refine ⟨?_, ?_, ?_, ?_⟩ <;> omega
      · have : p = (3 * (n - 1) + 1, 3 * (n - 2) + 2) := by simpa using h
        subst this
        constructor
        · refine ⟨?_, ?_, ?_, ?_⟩ <;> omega
        · refine ⟨?_, ?_, ?_, ?_⟩ <;> omega

theorem prodEntries_initNodes [CommSemiring α] (n : Nat) (b : Nat → Nat) :
    prodEntries (initNodes n : List (Node α)) b =
      ((List.range n).map (fun k => if b (3 * k) = 0 then (1:α) else 0)).prod := by
  unfold prodEntries initNodes
  rw [List.map_map]
  congr 1
  refine List.map_congr_left (fun k _ => ?_)
  show (bNode n k : Node α).entry ((bNode n k : Node α).edges.map b) = _
  unfold bNode
  by_cases hk : k = 0 ∨ k = n - 1
  · rw [if_pos hk]
    simp [unitEntry]
  · rw [if_neg hk]
    simp [unitEntry]

theorem step_sum [CommSemiring α] (g : Nat) (Q : Prop) [Decidable Q] (P : α) :
    (Finset.range 2).sum
        (fun v => if v = g ∧ Q then P * (if v = 0 then (1:α) else 0) else 0)
      = if g = 0 ∧ Q then P else 0 := by
  rw [Finset.sum_range_succ, Finset.sum_range_one]
  have h2 : (if (1:ℕ) = g ∧ Q then P * (if (1:ℕ) = 0 then (1:α) else 0) else 0) = 0 := by
    rcases em ((1:ℕ) = g ∧ Q) with h | h
    · rw [if_pos h, if_neg (by norm_num), mul_zero]
    · rw [if_neg h]
  rw [h2, add_zero]
  have h0 : ((0:ℕ) = g ∧ Q) ↔ (g = 0 ∧ Q) := by
    constructor
    · rintro ⟨h, hq⟩
      exact ⟨h.symm, hq⟩
    · rintro ⟨h, hq⟩
      exact ⟨h.symm, hq⟩
  rw [if_congr h0 (by rw [if_pos rfl, mul_one]) rfl]

theorem tail_zero_split (bs : List Nat) (m n : Nat) (hmn : m < n) :
    (∀ k, k < n → m ≤ k → bs.getD k 0 = 0) ↔
      (bs.getD m 0 = 0 ∧ ∀ k, k < n → m + 1 ≤ k → bs.getD k 0 = 0) := by
  constructor
  · intro h
    exact ⟨h m hmn le_rfl, fun k h1 h2 => h k h1 (by omega)⟩
  · rintro ⟨h0, h⟩ k h1 h2
    rcases Nat.eq_or_lt_of_le h2 with h3 | h3
    · rw [← h3]
      exact h0
    · exact h k h1 (by omega)

theorem prefix_split (bs : List Nat) (m : Nat) (b b' : Nat → Nat) (v : Nat)
    (hk : ∀ k, k < m → b' (3 * k) = b (3 * k)) (hm : b' (3 * m) = v) :
    (∀ k, k < m + 1 → bs.getD k 0 = b' (3 * k)) ↔
      ((∀ k, k < m → bs.getD k 0 = b (3 * k)) ∧ bs.getD m 0 = v) := by
  constructor
  · intro h
    exact ⟨fun k hkm => (h k (by omega)).trans (hk k hkm), (h m (by omega)).trans hm⟩
  · rintro ⟨h1, h2⟩ k hkm
    rcases Nat.lt_or_ge k m with h3 | h3
    · exact (h1 k h3).trans (hk k h3).symm
    · have hke : k = m := by omega
      subst hke
      exact h2.trans hm.symm

theorem prod_split [CommSemiring α] (m : Nat) (b b' : Nat → Nat)
    (hk : ∀ k, k < m → b' (3 * k) = b (3 * k)) :
    ((List.range (m + 1)).map (fun k => if b' (3 * k) = 0 then (1:α) else 0)).prod =
      ((List.range m).map (fun k => if b (3 * k) = 0 then (1:α) else 0)).prod *
        (if b' (3 * m) = 0 then (1:α) else 0) := by
  rw [List.range_succ, List.map_append, List.prod_append]
  congr 1
  · congr 1
    exact List.map_congr_left (fun k hkm => by rw [hk k (List.mem_range.mp hkm)])
  · simp

/-- Contraction of the boundary chain, node by node from qubit `m` on:
all bond edges are forced to 0, each front edge must match its requested
basis value, and each boundary node contributes the indicator of its 0
entry. -/
theorem init_sum [CommSemiring α] (n : Nat) (hn : 2 ≤ n) (bs : List Nat) :
    ∀ (cnt m : Nat), m + cnt = n → ∀ b : Nat → Nat,
      (∀ p ∈ initPairs n, (p.1 < 3 * m → b p.1 = 0) ∧ (p.2 < 3 * m → b p.2 = 0)) →
      sumAssign
        (((List.range' m cnt).map (fun k => edgesOf (bNode n k : Node α))).flatten)
        (fun a => if pairsOk (initPairs n) a ∧ (List.range n).map (fun k => a (3 * k)) = bs
                  then prodEntries (initNodes n) a else 0) b
      = if bs.length = n ∧ (∀ k, k < n → m ≤ k → bs.getD k 0 = 0) ∧
            (∀ k, k < m → bs.getD k 0 = b (3 * k))
        then ((List.range m).map (fun k => if b (3 * k) = 0 then (1:α) else 0)).prod
        else 0 := by
  intro cnt
  induction cnt with
  | zero =>
    intro m hm b hb
    have hmn : n = m := by omega
    subst hmn
    show (if pairsOk (initPairs n) b ∧ (List.range n).map (fun k => b (3 * k)) = bs
          then prodEntries (initNodes n) b else 0) = _
    have hpo : pairsOk (initPairs n) b := by
      intro p hp
      have hf := initPairs_mem n hn p hp
      have h1 := (hb p hp).1 hf.1.2.1
      have h2 := (hb p hp).2 hf.2.2.1
      rw [h1, h2]
    have hiff : ((List.range n).map (fun k => b (3 * k)) = bs) ↔
        (bs.length = n ∧ (∀ k, k < n → n ≤ k → bs.getD k 0 = 0) ∧
          (∀ k, k < n → bs.getD k 0 = b (3 * k))) := by
      rw [map_range_eq_iff (fun k => b (3 * k)) 0 bs n]
      constructor
      · rintro ⟨h1, h2⟩
        exact ⟨h1, fun k hk1 hk2 => absurd hk1 (by omega), h2⟩
      · rintro ⟨h1, _, h3⟩
        exact ⟨h1, h3⟩
    rw [prodEntries_initNodes]
    by_cases hc : bs.length = n ∧ (∀ k, k < n → n ≤ k → bs.getD k 0 = 0) ∧
        (∀ k, k < n → bs.getD k 0 = b (3 * k))
    · rw [if_pos hc, if_pos ⟨hpo, hiff.mpr hc⟩]
    · rw [if_neg hc, if_neg (fun hand => hc (hiff.mp hand.2))]
  | succ c ih =>
    intro m hm b hb
    have hmn : m < n := by omega
    have hsplit : List.range' m (c + 1) = m :: List.range' (m + 1) c := rfl
    rw [hsplit, List.map_cons, List.flatten_cons, sumAssign_append]
    by_cases hm0 : m = 0 ∨ m = n - 1
    · -- endpoint boundary node: edges (3m, dim 2) and (3m+1, dim 1)
      have hedges : edgesOf (bNode n m : Node α) = [(3 * m, 2), (3 * m + 1, 1)] := by
        unfold edgesOf bNode
        rw [if_pos hm0]
        rfl
      rw [hedges, sumAssign_cons]
      have hterm : ∀ v ∈ Finset.range 2,
          sumAssign [(3 * m + 1, 1)]
            (fun b1 => sumAssign
              ((List.range' (m + 1) c).map (fun k => edgesOf (bNode n k : Node α))).flatten
              (fun a => if pairsOk (initPairs n) a ∧
                    (List.range n).map (fun k => a (3 * k)) = bs
                  then prodEntries (initNodes n) a else 0) b1)
            (upd b (3 * m) v)
          = (if v = bs.getD m 0 ∧ (bs.length = n ∧
                (∀ k, k < n → m + 1 ≤ k → bs.getD k 0 = 0) ∧
                (∀ k, k < m → bs.getD k 0 = b (3 * k)))
             then ((List.range m).map (fun k => if b (3 * k) = 0 then (1:α) else 0)).prod *
               (if v = 0 then (1:α) else 0) else 0) := by
        intro v hv
        rw [sumAssign_dim_one, sumAssign_nil]
        set b' := upd (upd b (3 * m) v) (3 * m + 1) 0 with hbdef
        have hb'k : ∀ k, k < m → b' (3 * k) = b (3 * k) := by
          intro k hkm
          rw [hbdef, upd_ne _ _ _ _ (by omega), upd_ne _ _ _ _ (by omega)]
        have hb'm : b' (3 * m) = v := by
          rw [hbdef, upd_ne _ _ _ _ (by omega), upd_self]
        have hb' : ∀ p ∈ initPairs n,
            (p.1 < 3 * (m + 1) → b' p.1 = 0) ∧ (p.2 < 3 * (m + 1) → b' p.2 = 0) := by
          intro p hp
          have hf := initPairs_mem n hn p hp
          have hbp := hb p hp
          constructor
          · intro hlt
            rcases Nat.lt_or_ge p.1 (3 * m) with hx | hx
            · rw [hbdef, upd_ne _ _ _ _ (by omega), upd_ne _ _ _ _ (by omega)]
              exact hbp.1 hx
            · have hx1 : p.1 = 3 * m + 1 := by
                rcases hm0 with h0 | h0 <;> omega
              rw [hx1, hbdef, upd_self]
          · intro hlt
            rcases Nat.lt_or_ge p.2 (3 * m) with hx | hx
            · rw [hbdef, upd_ne _ _ _ _ (by omega), upd_ne _ _ _ _ (by omega)]
              exact hbp.2 hx
            · have hx1 : p.2 = 3 * m + 1 := by
                rcases hm0 with h0 | h0 <;> omega
              rw [hx1, hbdef, upd_self]
        rw [ih (m + 1) (by omega) b' hb']
        have hiff2 : (bs.length = n ∧ (∀ k, k < n → m + 1 ≤ k → bs.getD k 0 = 0) ∧
            (∀ k, k < m + 1 → bs.getD k 0 = b' (3 * k))) ↔
            (v = bs.getD m 0 ∧ (bs.length = n ∧
              (∀ k, k < n → m + 1 ≤ k → bs.getD k 0 = 0) ∧
              (∀ k, k < m → bs.getD k 0 = b (3 * k)))) := by
          rw [prefix_split bs m b b' v hb'k hb'm]
          constructor
          · rintro ⟨h1, h2, h3, h4⟩
            exact ⟨h4.symm, h1, h2, h3⟩
          · rintro ⟨h1, h2, h3, h4⟩
            exact ⟨h2, h3, h4, h1.symm⟩
        rw [if_congr hiff2 (by rw [prod_split m b b' hb'k, hb'm]) rfl]
      rw [Finset.sum_congr rfl hterm, step_sum]
      refine if_congr ?_ rfl rfl
      rw [tail_zero_split bs m n hmn]
      tauto
    · -- interior boundary node: edges (3m, dim 2), (3m+1, dim 1), (3m+2, dim 1)
      have hedges : edgesOf (bNode n m : Node α) =
          [(3 * m, 2), (3 * m + 1, 1), (3 * m + 2, 1)] := by
        unfold edgesOf bNode
        rw [if_neg hm0]
        rfl
      rw [hedges, sumAssign_cons]
      have hterm : ∀ v ∈ Finset.range 2,
          sumAssign [(3 * m + 1, 1), (3 * m + 2, 1)]
            (fun b1 => sumAssign
              ((List.range' (m + 1) c).map (fun k => edgesOf (bNode n k : Node α))).flatten
              (fun a => if pairsOk (initPairs n) a ∧
                    (List.range n).map (fun k => a (3 * k)) = bs
                  then prodEntries (initNodes n) a else 0) b1)
            (upd b (3 * m) v)
          = (if v = bs.getD m 0 ∧ (bs.length = n ∧
                (∀ k, k < n → m + 1 ≤ k → bs.getD k 0 = 0) ∧
                (∀ k, k < m → bs.getD k 0 = b (3 * k)))
             then ((List.range m).map (fun k => if b (3 * k) = 0 then (1:α) else 0)).prod *
               (if v = 0 then (1:α) else 0) else 0) := by
        intro v hv
        rw [sumAssign_dim_one, sumAssign_dim_one, sumAssign_nil]
        set b' := upd (upd (upd b (3 * m) v) (3 * m + 1) 0) (3 * m + 2) 0 with hbdef
        have hb'k : ∀ k, k < m → b' (3 * k) = b (3 * k) := by
          intro k hkm
          rw [hbdef, upd_ne _ _ _ _ (by omega), upd_ne _ _ _ _ (by omega),
            upd_ne _ _ _ _ (by omega)]
        have hb'm : b' (3 * m) = v := by
          rw [hbdef, upd_ne _ _ _ _ (by omega), upd_ne _ _ _ _ (by omega), upd_self]
        have hb' : ∀ p ∈ initPairs n,
            (p.1 < 3 * (m + 1) → b' p.1 = 0) ∧ (p.2 < 3 * (m + 1) → b' p.2 = 0) := by
          intro p hp
          have hf := initPairs_mem n hn p hp
          have hbp := hb p hp
          constructor
          · intro hlt
            rcases Nat.lt_or_ge p.1 (3 * m) with hx | hx
            · rw [hbdef, upd_ne _ _ _ _ (by omega), upd_ne _ _ _ _ (by omega),
                upd_ne _ _ _ _ (by omega)]
              exact hbp.1 hx
            · rcases Nat.lt_or_ge p.1 (3 * m + 2) with hx2 | hx2
              · have hx1 : p.1 = 3 * m + 1 := by omega
                rw [hx1, hbdef, upd_ne _ _ _ _ (by omega), upd_self]
              · have hx1 : p.1 = 3 * m + 2 := by omega
                rw [hx1, hbdef, upd_self]
          · intro hlt
            rcases Nat.lt_or_ge p.2 (3 * m) with hx | hx
            · rw [hbdef, upd_ne _ _ _ _ (by omega), upd_ne _ _ _ _ (by omega),
                upd_ne _ _ _ _ (by omega)]
              exact hbp.2 hx
            · rcases Nat.lt_or_ge p.2 (3 * m + 2) with hx2 | hx2
              · have hx1 : p.2 = 3 * m + 1 := by omega
                rw [hx1, hbdef, upd_ne _ _ _ _ (by omega), upd_self]
              · have hx1 : p.2 = 3 * m + 2 := by omega
                rw [hx1, hbdef, upd_self]
        rw [ih (m + 1) (by omega) b' hb']
        have hiff2 : (bs.length = n ∧ (∀ k, k < n → m + 1 ≤ k → bs.getD k 0 = 0) ∧
            (∀ k, k < m + 1 → bs.getD k 0 = b' (3 * k))) ↔
            (v = bs.getD m 0 ∧ (bs.length = n ∧
              (∀ k, k < n → m + 1 ≤ k → bs.getD k 0 = 0) ∧
              (∀ k, k < m → bs.getD k 0 = b (3 * k)))) := by
          rw [prefix_split bs m b b' v hb'k hb'm]
          constructor
          · rintro ⟨h1, h2, h3, h4⟩
            exact ⟨h4.symm, h1, h2, h3⟩
          · rintro ⟨h1, h2, h3, h4⟩
            exact ⟨h2, h3, h4, h1.symm⟩
        rw [if_congr hiff2 (by rw [prod_split m b b' hb'k, hb'm]) rfl]
      rw [Finset.sum_congr rfl hterm, step_sum]
      refine if_congr ?_ rfl rfl
      rw [tail_zero_split bs m n hmn]
      tauto
/-- The freshly constructed circuit's contraction against basis values
`bs` is 1 exactly on the all-zero string of length `n`, else 0. -/
theorem stateAt_initC [CommSemiring α] (n : Nat) (hn : 2 ≤ n) (bs : List Nat) :
    stateAt (initC n : Circuit α) bs = if bs = List.replicate n 0 then 1 else 0 := by
  have hedges : allEdgeDims (initNodes n : List (Node α)) =
      ((List.range' 0 n).map (fun k => edgesOf (bNode n k : Node α))).flatten := by
    unfold allEdgeDims initNodes
    rw [List.map_map, ← List.range_eq_range']
    rfl
  have hmain := @init_sum α _ n hn bs n 0 (by omega) (fun _ => 0)
    (fun p hp => ⟨fun h => absurd h (by omega), fun h => absurd h (by omega)⟩)
  unfold stateAt netTensor
  show sumAssign (allEdgeDims (initNodes n : List (Node α))) _ _ = _
  rw [hedges]
  refine Eq.trans (sumAssign_ext _ _ (fun a => ?_)) (Eq.trans hmain ?_)
  · refine if_congr (and_congr Iff.rfl ?_) rfl rfl
    show ((List.range n).map (fun k => 3 * k)).map a = bs ↔ _
    rw [List.map_map]
    rfl
  · by_cases hc : bs = List.replicate n 0
    · have h1 : bs.length = n ∧ (∀ k, k < n → 0 ≤ k → bs.getD k 0 = 0) ∧
          (∀ k, k < 0 → bs.getD k 0 = (fun _ => (0:Nat)) (3 * k)) := by
        rw [eq_replicate_zero_iff] at hc
        exact ⟨hc.1, fun k hk _ => hc.2 k hk, fun k h => absurd h (by omega)⟩
      rw [if_pos h1, if_pos hc]
      simp
    · have h1 : ¬(bs.length = n ∧ (∀ k, k < n → 0 ≤ k → bs.getD k 0 = 0) ∧
          (∀ k, k < 0 → bs.getD k 0 = (fun _ => (0:Nat)) (3 * k))) := by
        intro h
        exact hc ((eq_replicate_zero_iff bs n).mpr
          ⟨h.1, fun k hk => h.2.1 k hk (by omega)⟩)
      rw [if_neg h1, if_neg hc]

/-! ### The gate-application loop -/

theorem getD_set_self {l : List Nat} {q v : Nat} (h : q < l.length) :
    (l.set q v).getD q 0 = v := by
  rw [List.getD_eq_getElem?_getD, List.getElem?_set_eq_of_lt v h]
  rfl

theorem getD_set_ne {l : List Nat} {q q' v : Nat} (h : q ≠ q') :
    (l.set q v).getD q' 0 = l.getD q' 0 := by
  rw [List.getD_eq_getElem?_getD, List.getElem?_set_ne h, ← List.getD_eq_getElem?_getD]

theorem getD_mem_of_lt {l : List Nat} {i : Nat} (h : i < l.length) : l.getD i 0 ∈ l := by
  rw [List.getD_eq_getElem?_getD, List.getElem?_eq_getElem h]
  exact List.getElem_mem h

theorem get?_eq_some_getD {l : List Nat} {i : Nat} (h : i < l.length) :
    l.get? i = some (l.getD i 0) := by
  rw [List.get?_eq_getElem?, List.getD_eq_getElem?_getD, List.getElem?_eq_getElem h]
  rfl

theorem pyIdx_ofNat (len q : Nat) (h : q < len) : pyIdx len (Int.ofNat q) = some q := by
  simp only [pyIdx, Int.ofNat_eq_coe]
  have h0 : ¬((q:Int) < 0) := by omega
  have h1 : (0:Int) ≤ (q:Int) ∧ (q:Int) < (len:Int) := ⟨by omega, by omega⟩
  rw [if_neg h0, if_pos h1]
  simp

theorem pyIdx_neg_eq (len : Nat) (i : Int) (h1 : -(len:Int) ≤ i) (h2 : i < 0) :
    pyIdx len i = pyIdx len (i + len) := by
  have h3 : ¬(i + (len:Int) < 0) := by omega
  simp only [pyIdx]
  rw [if_pos h2, if_neg h3]

/-- One successful iteration of the gate loop. -/
theorem agLoop_cons_ok (gE : List Nat) (noe : Nat) (ind : Int) (rest : List Int)
    (i : Nat) (fr : List Nat) (ps : List (Nat × Nat))
    (ein : Nat) (hein : gE.get? i = some ein)
    (j : Nat) (hj : pyIdx fr.length ind = some j)
    (eout : Nat) (heout : gE.get? (i + noe) = some eout) :
    agLoop gE noe (ind :: rest) i fr ps =
      agLoop gE noe rest (i + 1) (fr.set j eout) (ps ++ [(ein, fr.getD j 0)]) := by
  simp only [agLoop, hein, hj, heout]

/-- Closed form of the successful gate loop on distinct in-range natural
targets: no failure, the targeted front entries end at the output edges,
the others are untouched, and the input edges are paired, in order, with
the original front entries. -/
theorem agLoop_spec (gE : List Nat) (noe : Nat) :
    ∀ (qs : List Nat) (i : Nat) (fr : List Nat) (ps : List (Nat × Nat)),
      qs.Nodup → (∀ q ∈ qs, q < fr.length) →
      (∀ pos, pos < qs.length → i + pos < gE.length ∧ i + pos + noe < gE.length) →
      (agLoop gE noe (qs.map Int.ofNat) i fr ps).2 = none ∧
      (agLoop gE noe (qs.map Int.ofNat) i fr ps).1.1.length = fr.length ∧
      (∀ pos, pos < qs.length →
        (agLoop gE noe (qs.map Int.ofNat) i fr ps).1.1.getD (qs.getD pos 0) 0 =
          gE.getD (i + pos + noe) 0) ∧
      (∀ q, q ∉ qs →
        (agLoop gE noe (qs.map Int.ofNat) i fr ps).1.1.getD q 0 = fr.getD q 0) ∧
      (agLoop gE noe (qs.map Int.ofNat) i fr ps).1.2 = ps ++
        (List.range qs.length).map
          (fun pos => (gE.getD (i + pos) 0, fr.getD (qs.getD pos 0) 0))
  | [], i, fr, ps, _, _, _ => by
    refine ⟨rfl, rfl, fun pos h => by simp at h, fun q _ => rfl, ?_⟩
    simp [agLoop]
  | q :: qs, i, fr, ps, hnd, hq, hgE => by
    have hqlen : q < fr.length := hq q (List.mem_cons_self q qs)
    have h00 : 0 < (q :: qs).length := by simp
    have hein := @get?_eq_some_getD gE i (hgE 0 h00).1
    have heout := @get?_eq_some_getD gE (i + noe)
      (by have := (hgE 0 h00).2; omega)
    have hj : pyIdx fr.length (Int.ofNat q) = some q := pyIdx_ofNat fr.length q hqlen
    have hstep := agLoop_cons_ok gE noe (Int.ofNat q) (qs.map Int.ofNat) i fr ps
      (gE.getD i 0) hein q hj (gE.getD (i + noe) 0) heout
    have hnd' : qs.Nodup := hnd.of_cons
    have hqnot : q ∉ qs := (List.nodup_cons.mp hnd).1
    have hq' : ∀ x ∈ qs, x < (fr.set q (gE.getD (i + noe) 0)).length := by
      intro x hx
      rw [List.length_set]
      exact hq x (List.mem_cons_of_mem _ hx)
    have hgE' : ∀ pos, pos < qs.length →
        (i + 1) + pos < gE.length ∧ (i + 1) + pos + noe < gE.length := by
      intro pos hpos
      have hp1 : pos + 1 < (q :: qs).length := by
        simp only [List.length_cons]
        omega
      have := hgE (pos + 1) hp1
      constructor <;> omega
    have ih := agLoop_spec gE noe qs (i + 1) (fr.set q (gE.getD (i + noe) 0))
      (ps ++ [(gE.getD i 0, fr.getD q 0)]) hnd' hq' hgE'
    rw [List.map_cons, hstep]
    obtain ⟨ih1, ih2, ih3, ih4, ih5⟩ := ih
    refine ⟨ih1, by rw [ih2, List.length_set], ?_, ?_, ?_⟩
    · intro pos hpos
      cases pos with
      | zero =>
        have hz : i + 0 + noe = i + noe := by omega
        rw [hz, List.getD_cons_zero, ih4 q hqnot, getD_set_self hqlen]
      | succ pos =>
        have hpos2 : pos < qs.length := by
          simp only [List.length_cons] at hpos
          omega
        rw [List.getD_cons_succ, ih3 pos hpos2]
        congr 1
        omega
    · intro x hx
      have hx1 : x ≠ q := fun h => hx (h ▸ List.mem_cons_self q qs)
      have hx2 : x ∉ qs := fun h => hx (List.mem_cons_of_mem _ h)
      rw [ih4 x hx2, getD_set_ne (fun h => hx1 h.symm)]
    · rw [ih5, List.length_cons, List.range_succ_eq_map, List.map_cons,
        List.map_map, List.append_assoc, List.singleton_append]
      congr 2
      refine List.map_congr_left (fun pos hpos => ?_)
      have hpos' : pos < qs.length := List.mem_range.mp hpos
      have hmem : qs.getD pos 0 ∈ qs := getD_mem_of_lt hpos'
      have hne : qs.getD pos 0 ≠ q := fun h => hqnot (h ▸ hmem)
      show ((gE.getD (i + 1 + pos) 0,
          (fr.set q (gE.getD (i + noe) 0)).getD (qs.getD pos 0) 0) : Nat × Nat)
        = (gE.getD (i + (pos + 1)) 0, fr.getD ((q :: qs).getD (pos + 1) 0) 0)
      rw [List.getD_cons_succ, getD_set_ne (fun h => hne h.symm)]
      have harith : i + 1 + pos = i + (pos + 1) := by omega
      rw [harith]

/-- Closed form of a successful `apply_general_gate` call on `k`
pairwise-distinct in-range natural targets with a rank-`2k` gate. -/
theorem apply_general_gate_spec (c : Circuit α) (g : GateSpec α) (qs : List Nat)
    (hnd : qs.Nodup) (hq : ∀ q ∈ qs, q < c.front.length)
    (hg : g.dims.length = 2 * qs.length) :
    (apply_general_gate c g (qs.map Int.ofNat)).2 = none ∧
    (apply_general_gate c g (qs.map Int.ofNat)).1.nqubits = c.nqubits ∧
    (apply_general_gate c g (qs.map Int.ofNat)).1.nextEdge =
      c.nextEdge + g.dims.length ∧
    (apply_general_gate c g (qs.map Int.ofNat)).1.nodes =
      c.nodes ++ [mkGate g c.nextEdge] ∧
    (apply_general_gate c g (qs.map Int.ofNat)).1.front.length = c.front.length ∧
    (∀ pos, pos < qs.length →
      (apply_general_gate c g (qs.map Int.ofNat)).1.front.getD (qs.getD pos 0) 0 =
        c.nextEdge + (qs.length + pos)) ∧
    (∀ q, q ∉ qs →
      (apply_general_gate c g (qs.map Int.ofNat)).1.front.getD q 0 =
        c.front.getD q 0) ∧
    (apply_general_gate c g (qs.map Int.ofNat)).1.pairs = c.pairs ++
      (List.range qs.length).map
        (fun pos => (c.nextEdge + pos, c.front.getD (qs.getD pos 0) 0)) := by
  have hlen : (qs.map Int.ofNat).length = qs.length := List.length_map _ _
  have hglen : (mkGate g c.nextEdge).edges.length = g.dims.length := by
    simp [mkGate]
  have hbounds : ∀ pos, pos < qs.length →
      0 + pos < (mkGate g c.nextEdge).edges.length ∧
      0 + pos + (qs.map Int.ofNat).length < (mkGate g c.nextEdge).edges.length := by
    intro pos hpos
    rw [hglen, hg, hlen]
    omega
  have hndi : (qs.map Int.ofNat).Nodup := hnd.map (fun a b h => Int.ofNat.inj h)
  obtain ⟨s1, s2, s3, s4, s5⟩ := agLoop_spec (mkGate g c.nextEdge).edges
    (qs.map Int.ofNat).length qs 0 c.front c.pairs hnd hq hbounds
  rcases hLe : agLoop (mkGate g c.nextEdge).edges (qs.map Int.ofNat).length
    (qs.map Int.ofNat) 0 c.front c.pairs with ⟨⟨FR, PS⟩, err⟩
  rw [hLe] at s1 s2 s3 s4 s5
  have herr : err = none := s1
  subst herr
  have hginx : ∀ j, j < g.dims.length →
      (mkGate g c.nextEdge).edges.getD j 0 = c.nextEdge + j := by
    intro j hj
    show ((List.range g.dims.length).map (fun j => c.nextEdge + j)).getD j 0 = _
    exact getD_map_range _ _ _ _ hj
  have happ : apply_general_gate c g (qs.map Int.ofNat) =
      ({ nqubits := c.nqubits, nodes := c.nodes ++ [mkGate g c.nextEdge],
         pairs := PS, front := FR,
         nextEdge := c.nextEdge + g.dims.length }, none) := by
    unfold apply_general_gate
    rw [if_pos hndi, hLe]
  rw [happ]
  refine ⟨rfl, rfl, rfl, rfl, s2, ?_, s4, ?_⟩
  · intro pos hpos
    have h3 := s3 pos hpos
    rw [hginx (0 + pos + (qs.map Int.ofNat).length) (by rw [hlen, hg]; omega)] at h3
    show FR.getD (qs.getD pos 0) 0 = _
    rw [h3, hlen]
    omega
  · show PS = _
    have s5' : PS = c.pairs ++
        (List.range qs.length).map
          (fun pos => ((mkGate g c.nextEdge).edges.getD (0 + pos) 0,
            c.front.getD (qs.getD pos 0) 0)) := s5
    rw [s5']
    congr 1
    refine List.map_congr_left (fun pos hpos => ?_)
    have hpos' : pos < qs.length := List.mem_range.mp hpos
    rw [hginx (0 + pos) (by rw [hg]; omega)]
    norm_num

/-! ### The structural invariant of reachable circuits -/

theorem getD_eq_get {l : List Nat} {m : Nat} (h : m < l.length) :
    l.getD m 0 = l.get ⟨m, h⟩ := by
  rw [List.getD_eq_getElem?_getD, List.getElem?_eq_getElem h]
  rfl

theorem nodup_getD_inj {l : List Nat} (hnd : l.Nodup) {m1 m2 : Nat}
    (h1 : m1 < l.length) (h2 : m2 < l.length)
    (he : l.getD m1 0 = l.getD m2 0) : m1 = m2 := by
  rw [getD_eq_get h1, getD_eq_get h2] at he
  exact congrArg Fin.val (List.nodup_iff_injective_get.mp hnd he)

theorem mem_iff_getD {l : List Nat} {e : Nat} :
    e ∈ l ↔ ∃ m, m < l.length ∧ l.getD m 0 = e := by
  rw [List.mem_iff_getElem]
  constructor
  · rintro ⟨m, h, he⟩
    refine ⟨m, h, ?_⟩
    rw [getD_eq_get h]
    exact he
  · rintro ⟨m, h, he⟩
    refine ⟨m, h, ?_⟩
    show l.get ⟨m, h⟩ = e
    rw [← getD_eq_get h]
    exact he

theorem mem_initNodes_edges {n : Nat} {nd : Node α} [Zero α] [One α]
    (hnd : nd ∈ (initNodes n : List (Node α))) :
    ∃ k, k < n ∧ nd = bNode n k := by
  rcases List.mem_map.mp hnd with ⟨k, hk, rfl⟩
  exact ⟨k, List.mem_range.mp hk, rfl⟩

/-- The freshly constructed circuit satisfies the structural invariant. -/
theorem inv_initC [Zero α] [One α] (n : Nat) (hn : 2 ≤ n) :
    Inv (initC n : Circuit α) := by
  refine ⟨by simp [initC], ?_, ?_, ?_, ?_, ?_, ?_⟩
  · exact (List.nodup_range n).map (fun a b h => by omega)
  · intro e he
    rcases List.mem_map.mp he with ⟨k, hk, rfl⟩
    have := List.mem_range.mp hk
    show 3 * k < 3 * n
    omega
  · intro nd hnd e he
    rcases mem_initNodes_edges hnd with ⟨k, hk, rfl⟩
    show e < 3 * n
    unfold bNode at he
    by_cases hke : k = 0 ∨ k = n - 1
    · rw [if_pos hke] at he
      simp only [List.mem_cons, List.mem_singleton] at he
      rcases he with rfl | he
      · omega
      · simp only [List.mem_cons, List.not_mem_nil, or_false] at he
        omega
    · rw [if_neg hke] at he
      simp only [List.mem_cons, List.mem_singleton] at he
      rcases he with rfl | rfl | he
      · omega
      · omega
      · simp only [List.mem_cons, List.not_mem_nil, or_false] at he
        omega
  · intro p hp
    have := initPairs_mem n hn p hp
    exact ⟨this.1.2.1, this.2.2.1⟩
  · intro e he
    rcases List.mem_map.mp he with ⟨k, hk, rfl⟩
    refine ⟨bNode n k, List.mem_map_of_mem _ hk, ?_⟩
    unfold bNode
    by_cases hke : k = 0 ∨ k = n - 1
    · rw [if_pos hke]
      exact List.mem_cons_self _ _
    · rw [if_neg hke]
      exact List.mem_cons_self _ _
  · intro e he p hp
    rcases List.mem_map.mp he with ⟨k, hk, rfl⟩
    have hf := initPairs_mem n hn p hp
    constructor
    · intro hc
      have : (3 * k) % 3 = 0 := by omega
      rw [hc] at this
      exact hf.1.1 this
    · intro hc
      have : (3 * k) % 3 = 0 := by omega
      rw [hc] at this
      exact hf.2.1 this

/-- A successful rank-`2k` gate application on distinct in-range qubits
preserves the structural invariant. -/
theorem inv_step (c : Circuit α) (g : GateSpec α) (qs : List Nat)
    (hinv : Inv c) (hnd : qs.Nodup) (hq : ∀ q ∈ qs, q < c.nqubits)
    (hg : g.dims.length = 2 * qs.length) :
    Inv (apply_general_gate c g (qs.map Int.ofNat)).1 := by
  obtain ⟨i1, i2, i3, i4, i5, i6, i7⟩ := hinv
  have hq' : ∀ q ∈ qs, q < c.front.length := fun q h => by rw [i1]; exact hq q h
  obtain ⟨s1, s2, s3, s4, s5, s6, s7, s8⟩ := apply_general_gate_spec c g qs hnd hq' hg
  have hnext : (apply_general_gate c g (qs.map Int.ofNat)).1.nextEdge =
      c.nextEdge + 2 * qs.length := by rw [s3, hg]
  have hval : ∀ m, m < c.front.length →
      ((apply_general_gate c g (qs.map Int.ofNat)).1.front.getD m 0 =
          c.front.getD m 0 ∧
        (apply_general_gate c g (qs.map Int.ofNat)).1.front.getD m 0 < c.nextEdge ∧
        m ∉ qs) ∨
      (∃ pos, pos < qs.length ∧ qs.getD pos 0 = m ∧
        (apply_general_gate c g (qs.map Int.ofNat)).1.front.getD m 0 =
          c.nextEdge + (qs.length + pos)) := by
    intro m hm
    by_cases hmq : m ∈ qs
    · rcases mem_iff_getD.mp hmq with ⟨pos, hpos, hvq⟩
      right
      have h6 := s6 pos hpos
      rw [hvq] at h6
      exact ⟨pos, hpos, hvq, h6⟩
    · left
      have h7 := s7 m hmq
      refine ⟨h7, ?_, hmq⟩
      rw [h7]
      exact i3 _ (getD_mem_of_lt hm)
  refine ⟨?_, ?_, ?_, ?_, ?_, ?_, ?_⟩
  · rw [s5, i1, s2]
  · rw [List.nodup_iff_injective_get]
    intro a b hab
    have ha2 : (a.1 : Nat) < c.front.length := by rw [← s5]; exact a.2
    have hb2 : (b.1 : Nat) < c.front.length := by rw [← s5]; exact b.2
    have hab' : (apply_general_gate c g (qs.map Int.ofNat)).1.front.getD a.1 0 =
        (apply_general_gate c g (qs.map Int.ofNat)).1.front.getD b.1 0 := by
      rw [getD_eq_get a.2, getD_eq_get b.2]
      exact hab
    apply Fin.ext
    rcases hval a.1 ha2 with ⟨he1, hl1, ho1⟩ | ⟨p1, hp1, hq1, hv1⟩ <;>
      rcases hval b.1 hb2 with ⟨he2, hl2, ho2⟩ | ⟨p2, hp2, hq2, hv2⟩
    · rw [he1, he2] at hab'
      exact nodup_getD_inj i2 ha2 hb2 hab'
    · rw [he1] at hab' hl1
      omega
    · rw [he2] at hab' hl2
      omega
    · have hpp : p1 = p2 := by omega
      rw [← hq1, ← hq2, hpp]
  · intro e he
    rcases mem_iff_getD.mp he with ⟨m, hm, hv⟩
    have hm' : m < c.front.length := by rw [← s5]; exact hm
    rw [hnext]
    rcases hval m hm' with ⟨_, hl, _⟩ | ⟨pos, hpos, _, hvv⟩
    · omega
    · omega
  · intro nd hnd' e he
    rw [hnext]
    rcases List.mem_append.mp (s4 ▸ hnd') with h | h
    · have := i4 nd h e he
      omega
    · have hgn : nd = mkGate g c.nextEdge := by simpa using h
      subst hgn
      rcases List.mem_map.mp he with ⟨j, hj, rfl⟩
      have := List.mem_range.mp hj
      rw [hg] at this
      omega
  · intro p hp
    rw [hnext]
    rcases List.mem_append.mp (s8 ▸ hp) with h | h
    · have := i5 p h
      constructor <;> omega
    · rcases List.mem_map.mp h with ⟨pos, hpos, rfl⟩
      have hpos' : pos < qs.length := List.mem_range.mp hpos
      have hqin : qs.getD pos 0 ∈ qs := getD_mem_of_lt hpos'
      have hflt : c.front.getD (qs.getD pos 0) 0 < c.nextEdge :=
        i3 _ (getD_mem_of_lt (hq' _ hqin))
      constructor <;> [omega; omega]
  · intro e he
    rcases mem_iff_getD.mp he with ⟨m, hm, hv⟩
    have hm' : m < c.front.length := by rw [← s5]; exact hm
    rcases hval m hm' with ⟨heq, _, _⟩ | ⟨pos, hpos, _, hvv⟩
    · have hce : c.front.getD m 0 ∈ c.front := getD_mem_of_lt hm'
      rcases i6 _ hce with ⟨nd, hndm, hem⟩
      refine ⟨nd, ?_, ?_⟩
      · rw [s4]
        exact List.mem_append_left _ hndm
      · rw [← hv, heq]
        exact hem
    · refine ⟨mkGate g c.nextEdge, ?_, ?_⟩
      · rw [s4]
        exact List.mem_append_right _ (List.mem_singleton.mpr rfl)
      · show e ∈ (List.range g.dims.length).map (fun j => c.nextEdge + j)
        refine List.mem_map.mpr ⟨qs.length + pos, ?_, ?_⟩
        · refine List.mem_range.mpr ?_
          rw [hg]
          omega
        · rw [← hv, hvv]
  · intro e he p hp
    rcases mem_iff_getD.mp he with ⟨m, hm, hv⟩
    have hm' : m < c.front.length := by rw [← s5]; exact hm
    rcases List.mem_append.mp (s8 ▸ hp) with hpo | hpn
    · rcases hval m hm' with ⟨heq, hlt, _⟩ | ⟨pos, hpos, _, hvv⟩
      · have hce : c.front.getD m 0 ∈ c.front := getD_mem_of_lt hm'
        have := i7 _ hce p hpo
        rw [← hv, heq]
        exact this
      · have := i5 p hpo
        constructor <;> omega
    · rcases List.mem_map.mp hpn with ⟨pos', hpos', rfl⟩
      have hpos'2 : pos' < qs.length := List.mem_range.mp hpos'
      have hqin : qs.getD pos' 0 ∈ qs := getD_mem_of_lt hpos'2
      have hqlt : qs.getD pos' 0 < c.front.length := hq' _ hqin
      have hflt : c.front.getD (qs.getD pos' 0) 0 < c.nextEdge :=
        i3 _ (getD_mem_of_lt hqlt)
      rcases hval m hm' with ⟨heq, hlt, hout⟩ | ⟨pos, hpos, hqv, hvv⟩
      · constructor
        · show e ≠ c.nextEdge + pos'
          omega
        · show e ≠ c.front.getD (qs.getD pos' 0) 0
          intro hc
          have heqq : c.front.getD m 0 = c.front.getD (qs.getD pos' 0) 0 := by
            rw [← heq, hv]
            exact hc
          have := nodup_getD_inj i2 hm' hqlt heqq
          exact hout (this ▸ hqin)
      · constructor
        · show e ≠ c.nextEdge + pos'
          omega
        · show e ≠ c.front.getD (qs.getD pos' 0) 0
          omega

/-- Every reachable circuit satisfies the structural invariant. -/
theorem reachable_inv [Zero α] [One α] {c : Circuit α} (h : Reachable c) : Inv c := by
  induction h with
  | base n hn => exact inv_initC n hn
  | step c g qs hr hnd hq hg ih => exact inv_step c g qs ih hnd hq hg

/-! ### Attaching the measurement projectors -/

theorem pairsOk_append (ps qs : List (Nat × Nat)) (a : Nat → Nat) :
    pairsOk (ps ++ qs) a ↔ pairsOk ps a ∧ pairsOk qs a := by
  unfold pairsOk
  exact List.forall_mem_append

theorem pairsOk_cons (p : Nat × Nat) (ps : List (Nat × Nat)) (a : Nat → Nat) :
    pairsOk (p :: ps) a ↔ (a p.1 = a p.2 ∧ pairsOk ps a) := by
  unfold pairsOk
  exact List.forall_mem_cons

theorem pairsOk_nil (a : Nat → Nat) : pairsOk [] a := fun p hp => absurd hp (by simp)

theorem allEdgeDims_append (A B : List (Node α)) :
    allEdgeDims (A ++ B) = allEdgeDims A ++ allEdgeDims B := by
  unfold allEdgeDims
  rw [List.map_append, List.flatten_append]

theorem prodEntries_append [CommMonoid α] (A B : List (Node α)) (a : Nat → Nat) :
    prodEntries (A ++ B) a = prodEntries A a * prodEntries B a := by
  unfold prodEntries
  rw [List.map_append, List.prod_append]

theorem if_and_mul [MulZeroClass α] (P Q : Prop) [Decidable P] [Decidable Q]
    (x y : α) :
    (if P ∧ Q then x * y else 0) = (if P then x else 0) * (if Q then y else 0) := by
  by_cases hp : P <;> by_cases hq : Q <;> simp [hp, hq]

theorem if_one_mul_if_one [MulZeroOneClass α] (P Q : Prop) [Decidable P] [Decidable Q] :
    (if P then (1:α) else 0) * (if Q then (1:α) else 0) = if P ∧ Q then (1:α) else 0 := by
  by_cases hp : P <;> by_cases hq : Q <;> simp [hp, hq]

theorem sum_two_delta [NonAssocSemiring α] (x cb : Nat) (hcb : cb < 2) :
    (Finset.range 2).sum
        (fun v => if x = v then (if v = cb then (1:α) else 0) else 0) =
      if x = cb then (1:α) else 0 := by
  rw [Finset.sum_range_succ, Finset.sum_range_one]
  have hcb' : cb = 0 ∨ cb = 1 := by omega
  rcases hcb' with rfl | rfl
  · by_cases hx : x = 0
    · subst hx
      simp
    · by_cases hx1 : x = 1
      · subst hx1
        simp
      · simp [hx, hx1]
  · by_cases hx : x = 0
    · subst hx
      simp
    · by_cases hx1 : x = 1
      · subst hx1
        simp
      · simp [hx, hx1]

theorem measureNodes_cons_valid [Zero α] [One α] (ch : Char) (rest : List Char)
    (i base : Nat) (h : ch = '0' ∨ ch = '1') :
    (measureNodes (ch :: rest) i base : List (Node α)) =
      mkMeasure i (charBit ch) base :: measureNodes rest (i + 1) (base + 1) := by
  rcases h with rfl | rfl
  · simp [measureNodes, charBit]
  · simp [measureNodes, charBit]

theorem measureNodes_edges_ge [Zero α] [One α] :
    ∀ (l : List Char) (i base : Nat),
      ∀ nd ∈ (measureNodes l i base : List (Node α)), ∀ e ∈ nd.edges, base ≤ e
  | [], _, _ => by simp [measureNodes]
  | ch :: rest, i, base => by
    intro nd hnd e he
    unfold measureNodes at hnd
    by_cases h1 : ch = '1'
    · rw [if_pos h1] at hnd
      rcases List.mem_cons.mp hnd with rfl | h
      · simp only [mkMeasure, List.mem_singleton] at he
        omega
      · have := measureNodes_edges_ge rest (i + 1) (base + 1) nd h e he
        omega
    · rw [if_neg h1] at hnd
      by_cases h0 : ch = '0'
      · rw [if_pos h0] at hnd
        rcases List.mem_cons.mp hnd with rfl | h
        · simp only [mkMeasure, List.mem_singleton] at he
          omega
        · have := measureNodes_edges_ge rest (i + 1) (base + 1) nd h e he
          omega
      · rw [if_neg h0] at hnd
        exact measureNodes_edges_ge rest (i + 1) base nd hnd e he

theorem measureNodes_length_le [Zero α] [One α] :
    ∀ (l : List Char) (i base : Nat),
      (measureNodes l i base : List (Node α)).length ≤ l.length
  | [], _, _ => by simp [measureNodes]
  | ch :: rest, i, base => by
    unfold measureNodes
    by_cases h1 : ch = '1'
    · rw [if_pos h1]
      have : (measureNodes rest (i + 1) (base + 1) : List (Node α)).length ≤
          rest.length := measureNodes_length_le rest (i + 1) (base + 1)
      simp only [List.length_cons]
      omega
    · rw [if_neg h1]
      by_cases h0 : ch = '0'
      · rw [if_pos h0]
        have : (measureNodes rest (i + 1) (base + 1) : List (Node α)).length ≤
            rest.length := measureNodes_length_le rest (i + 1) (base + 1)
        simp only [List.length_cons]
        omega
      · rw [if_neg h0]
        have : (measureNodes rest (i + 1) base : List (Node α)).length ≤
            rest.length := measureNodes_length_le rest (i + 1) base
        simp only [List.length_cons]
        omega

theorem measureNodes_length_eq_iff [Zero α] [One α] :
    ∀ (l : List Char) (i base : Nat),
      ((measureNodes l i base : List (Node α)).length = l.length ↔
        ∀ ch ∈ l, ch = '0' ∨ ch = '1')
  | [], _, _ => by simp [measureNodes]
  | ch :: rest, i, base => by
    unfold measureNodes
    by_cases h1 : ch = '1'
    · rw [if_pos h1]
      simp only [List.length_cons, Nat.add_right_cancel_iff, List.mem_cons]
      rw [measureNodes_length_eq_iff rest (i + 1) (base + 1)]
      constructor
      · intro h x hx
        rcases hx with rfl | hx
        · right
          exact h1
        · exact h x hx
      · intro h x hx
        exact h x (Or.inr hx)
    · rw [if_neg h1]
      by_cases h0 : ch = '0'
      · rw [if_pos h0]
        simp only [List.length_cons, Nat.add_right_cancel_iff, List.mem_cons]
        rw [measureNodes_length_eq_iff rest (i + 1) (base + 1)]
        constructor
        · intro h x hx
          rcases hx with rfl | hx
          · left
            exact h0
          · exact h x hx
        · intro h x hx
          exact h x (Or.inr hx)
      · rw [if_neg h0]
        have hle : (measureNodes rest (i + 1) base : List (Node α)).length ≤
            rest.length := measureNodes_length_le rest (i + 1) base
        simp only [List.length_cons]
        constructor
        · intro h
          omega
        · intro h
          exact absurd (h ch (List.mem_cons_self _ _)) (by simp [h0, h1])

theorem mem_allEdgeDims {nodes : List (Node α)} {p : Nat × Nat}
    (h : p ∈ allEdgeDims nodes) : ∃ nd ∈ nodes, p.1 ∈ nd.edges := by
  unfold allEdgeDims at h
  rcases List.mem_flatten.mp h with ⟨L, hL, hpL⟩
  rcases List.mem_map.mp hL with ⟨nd, hnd, rfl⟩
  exact ⟨nd, hnd, (List.of_mem_zip hpL).1⟩

theorem allEdgeDims_cons (x : Node α) (xs : List (Node α)) :
    allEdgeDims (x :: xs) = edgesOf x ++ allEdgeDims xs := by
  unfold allEdgeDims
  rw [List.map_cons, List.flatten_cons]

theorem prodEntries_cons [CommMonoid α] (x : Node α) (xs : List (Node α))
    (a : Nat → Nat) :
    prodEntries (x :: xs) a = x.entry (x.edges.map a) * prodEntries xs a := by
  unfold prodEntries
  rw [List.map_cons, List.prod_cons]

theorem edgesOf_mkMeasure [Zero α] [One α] (i bit base : Nat) :
    edgesOf (mkMeasure i bit base : Node α) = [(base, 2)] := rfl

theorem headD_mkMeasure [Zero α] [One α] (i bit base : Nat) :
    (mkMeasure i bit base : Node α).edges.headD 0 = base := rfl

theorem entry_mkMeasure [Zero α] [One α] (i bit base : Nat) (a : Nat → Nat) :
    (mkMeasure i bit base : Node α).entry
        ((mkMeasure i bit base : Node α).edges.map a) =
      if a base = bit then (1:α) else 0 := by
  show (if ([a base] : List Nat).head? = some bit then (1:α) else 0) = _
  simp

theorem pairsOk_cons' (x y : Nat) (ps : List (Nat × Nat)) (a : Nat → Nat) :
    pairsOk ((x, y) :: ps) a ↔ (a x = a y ∧ pairsOk ps a) := by
  unfold pairsOk
  exact List.forall_mem_cons

/-- Contracting the projector block against the front edges pins each
front edge value to its requested bit: summing over the projector edges
yields the indicator that the (outer) front assignment equals the
bitstring. -/
theorem amp_inner [CommSemiring α] :
    ∀ (l : List Char) (fr : List Nat) (i e0 : Nat) (b : Nat → Nat),
      (∀ ch ∈ l, ch = '0' ∨ ch = '1') → fr.length = l.length →
      (∀ f ∈ fr, f < e0) →
      sumAssign (allEdgeDims (measureNodes l i e0 : List (Node α)))
        (fun a => if pairsOk (fr.zip ((measureNodes l i e0 : List (Node α)).map
              (fun m => m.edges.headD 0))) a
            then prodEntries (measureNodes l i e0 : List (Node α)) a else 0) b
      = if fr.map b = l.map charBit then (1:α) else 0
  | [], fr, i, e0, b, hch, hlen, hfr => by
    have hfre : fr = [] := List.length_eq_zero.mp (by simpa using hlen)
    subst hfre
    show (if pairsOk [] b then prodEntries ([] : List (Node α)) b else 0) = _
    rw [if_pos (pairsOk_nil b)]
    simp [prodEntries]
  | ch :: rest, fr, i, e0, b, hch, hlen, hfr => by
    rcases fr with _ | ⟨f, fr'⟩
    · simp at hlen
    have hv := hch ch (List.mem_cons_self _ _)
    have hcb : charBit ch < 2 := by
      unfold charBit
      split <;> omega
    have hflt : f < e0 := hfr f (List.mem_cons_self _ _)
    have hfr1 : ∀ x ∈ fr', x < e0 := fun x hx => hfr x (List.mem_cons_of_mem _ hx)
    have hch' : ∀ x ∈ rest, x = '0' ∨ x = '1' :=
      fun x hx => hch x (List.mem_cons_of_mem _ hx)
    have hlen' : fr'.length = rest.length := by simpa using hlen
    simp only [measureNodes_cons_valid ch rest i e0 hv, allEdgeDims_cons,
      edgesOf_mkMeasure, List.singleton_append, List.map_cons, headD_mkMeasure,
      List.zip_cons_cons]
    rw [sumAssign_cons]
    have hnotin : ∀ x, x ≤ e0 →
        x ∉ (allEdgeDims (measureNodes rest (i + 1) (e0 + 1) :
          List (Node α))).map Prod.fst := by
      intro x hx hmem
      rcases List.mem_map.mp hmem with ⟨p, hp, rfl⟩
      rcases mem_allEdgeDims hp with ⟨nd, hnd, hpe⟩
      have := measureNodes_edges_ge rest (i + 1) (e0 + 1) nd hnd _ hpe
      omega
    have hterm : ∀ v ∈ Finset.range 2,
        sumAssign (allEdgeDims (measureNodes rest (i + 1) (e0 + 1) : List (Node α)))
          (fun a => if pairsOk ((f, e0) ::
                fr'.zip ((measureNodes rest (i + 1) (e0 + 1) : List (Node α)).map
                  (fun m => m.edges.headD 0))) a
              then prodEntries
                (mkMeasure i (charBit ch) e0 ::
                  measureNodes rest (i + 1) (e0 + 1) : List (Node α)) a
              else 0)
          (upd b e0 v)
        = (if b f = v then (if v = charBit ch then (1:α) else 0) else 0) *
            (if fr'.map b = rest.map charBit then (1:α) else 0) := by
      intro v hv2
      have hcongr : sumAssign
          (allEdgeDims (measureNodes rest (i + 1) (e0 + 1) : List (Node α)))
          (fun a => if pairsOk ((f, e0) ::
                fr'.zip ((measureNodes rest (i + 1) (e0 + 1) : List (Node α)).map
                  (fun m => m.edges.headD 0))) a
              then prodEntries
                (mkMeasure i (charBit ch) e0 ::
                  measureNodes rest (i + 1) (e0 + 1) : List (Node α)) a
              else 0)
          (upd b e0 v)
          = sumAssign
            (allEdgeDims (measureNodes rest (i + 1) (e0 + 1) : List (Node α)))
            (fun a => (if b f = v then (if v = charBit ch then (1:α) else 0) else 0) *
              (if pairsOk (fr'.zip
                    ((measureNodes rest (i + 1) (e0 + 1) : List (Node α)).map
                       (fun m => m.edges.headD 0))) a
                then prodEntries (measureNodes rest (i + 1) (e0 + 1) : List (Node α)) a
                else 0))
            (upd b e0 v) := by
        refine sumAssign_congr _ _ (fun a ha => ?_)
        have he0 : a e0 = v := by
          rw [ha e0 (hnotin e0 le_rfl), upd_self]
        have haf : a f = b f := by
          rw [ha f (hnotin f (by omega)), upd_ne _ _ _ _ (by omega)]
        have hiffc : pairsOk ((f, e0) ::
              fr'.zip ((measureNodes rest (i + 1) (e0 + 1) : List (Node α)).map
                (fun m => m.edges.headD 0))) a ↔
            (b f = v ∧ pairsOk (fr'.zip
              ((measureNodes rest (i + 1) (e0 + 1) : List (Node α)).map
                (fun m => m.edges.headD 0))) a) := by
          rw [pairsOk_cons', haf, he0]
        rw [if_congr hiffc (by rw [prodEntries_cons, entry_mkMeasure, he0]) rfl]
        exact if_and_mul _ _ _ _
      rw [hcongr, sumAssign_const_mul]
      rw [amp_inner rest fr' (i + 1) (e0 + 1) (upd b e0 v) hch' hlen'
        (fun x hx => by have := hfr1 x hx; omega)]
      have hmap : fr'.map (upd b e0 v) = fr'.map b :=
        List.map_congr_left (fun x hx =>
          upd_ne b e0 v x (by have := hfr1 x hx; omega))
      rw [hmap]
    rw [Finset.sum_congr rfl hterm, ← Finset.sum_mul, sum_two_delta (b f) _ hcb,
      if_one_mul_if_one]
    refine if_congr ?_ rfl rfl
    exact (List.cons_eq_cons).symm

theorem pairsOk_congr {ps : List (Nat × Nat)} {a b : Nat → Nat}
    (h : ∀ p ∈ ps, a p.1 = b p.1 ∧ a p.2 = b p.2) : pairsOk ps a ↔ pairsOk ps b := by
  unfold pairsOk
  constructor <;> intro hh p hp
  · rw [← (h p hp).1, ← (h p hp).2]
    exact hh p hp
  · rw [(h p hp).1, (h p hp).2]
    exact hh p hp

theorem prodEntries_congr [CommMonoid α] {nodes : List (Node α)} {a b : Nat → Nat}
    (h : ∀ nd ∈ nodes, ∀ e ∈ nd.edges, a e = b e) :
    prodEntries nodes a = prodEntries nodes b := by
  unfold prodEntries
  congr 1
  refine List.map_congr_left (fun nd hnd => ?_)
  congr 1
  exact List.map_congr_left (fun e he => h nd hnd e he)

/-- Attaching one projector per character to the front edges and closing
the network computes the same value as contracting the original network
against the corresponding basis values. -/
theorem amp_eq_stateAt [CommSemiring α] (nodes : List (Node α))
    (ps : List (Nat × Nat)) (fr : List Nat) (l : List Char) (e0 : Nat)
    (hch : ∀ ch ∈ l, ch = '0' ∨ ch = '1') (hlen : fr.length = l.length)
    (hfr : ∀ f ∈ fr, f < e0)
    (hnodes : ∀ nd ∈ nodes, ∀ e ∈ nd.edges, e < e0)
    (hps : ∀ p ∈ ps, p.1 < e0 ∧ p.2 < e0) :
    netTensor (nodes ++ (measureNodes l 0 e0 : List (Node α)))
      (ps ++ fr.zip ((measureNodes l 0 e0 : List (Node α)).map
        (fun m => m.edges.headD 0))) [] []
    = netTensor nodes ps fr (l.map charBit) := by
  have hnotin : ∀ x, x < e0 →
      x ∉ (allEdgeDims (measureNodes l 0 e0 : List (Node α))).map Prod.fst := by
    intro x hx hmem
    rcases List.mem_map.mp hmem with ⟨p, hp, rfl⟩
    rcases mem_allEdgeDims hp with ⟨nd, hnd, hpe⟩
    have := measureNodes_edges_ge l 0 e0 nd hnd _ hpe
    omega
  unfold netTensor
  rw [allEdgeDims_append, sumAssign_append]
  refine sumAssign_ext _ _ (fun b => ?_)
  have hcongr : sumAssign (allEdgeDims (measureNodes l 0 e0 : List (Node α)))
      (fun a => if pairsOk (ps ++ fr.zip
            ((measureNodes l 0 e0 : List (Node α)).map
              (fun m => m.edges.headD 0))) a ∧ List.map a [] = []
          then prodEntries (nodes ++ measureNodes l 0 e0 : List (Node α)) a
          else 0) b
      = sumAssign (allEdgeDims (measureNodes l 0 e0 : List (Node α)))
        (fun a => (if pairsOk ps b then prodEntries nodes b else 0) *
          (if pairsOk (fr.zip ((measureNodes l 0 e0 : List (Node α)).map
                (fun m => m.edges.headD 0))) a
            then prodEntries (measureNodes l 0 e0 : List (Node α)) a else 0)) b := by
    refine sumAssign_congr _ _ (fun a ha => ?_)
    have hlow : ∀ x, x < e0 → a x = b x := fun x hx => ha x (hnotin x hx)
    have hiff1 : pairsOk ps a ↔ pairsOk ps b :=
      pairsOk_congr (fun p hp => ⟨hlow _ (hps p hp).1, hlow _ (hps p hp).2⟩)
    have hpe : prodEntries nodes a = prodEntries nodes b :=
      prodEntries_congr (fun nd hnd e he => hlow e (hnodes nd hnd e he))
    have hiff0 : (pairsOk (ps ++ fr.zip
          ((measureNodes l 0 e0 : List (Node α)).map
            (fun m => m.edges.headD 0))) a ∧ List.map a [] = []) ↔
        (pairsOk ps b ∧ pairsOk (fr.zip
          ((measureNodes l 0 e0 : List (Node α)).map
            (fun m => m.edges.headD 0))) a) := by
      rw [pairsOk_append, hiff1]
      simp
    rw [if_congr hiff0 (by rw [prodEntries_append, hpe]) rfl]
    exact if_and_mul _ _ _ _
  rw [hcongr, sumAssign_const_mul, amp_inner l fr 0 e0 b hch hlen hfr]
  have hfin := (if_and_mul (pairsOk ps b) (fr.map b = l.map charBit)
    (prodEntries nodes b) (1:α)).symm
  rw [mul_one] at hfin
  exact hfin

/-- `amplitude` on a well-formed circuit and a valid bitstring computes
the live network's contraction against the corresponding basis values. -/
theorem amplitude_ok [CommSemiring α] (c : Circuit α) (hinv : Inv c)
    (l : List Char) (hlen : l.length = c.nqubits)
    (hch : ∀ ch ∈ l, ch = '0' ∨ ch = '1') :
    amplitude c l = .ok (stateAt c (l.map charBit)) := by
  obtain ⟨i1, i2, i3, i4, i5, i6, i7⟩ := hinv
  have hmslen : (measureNodes l 0 (copyCircuit c).nextEdge : List (Node α)).length =
      l.length := (measureNodes_length_eq_iff l 0 (copyCircuit c).nextEdge).mpr hch
  have hfrlen : (copyCircuit c).front.length = l.length := by
    show (c.front.map (fun e => e + c.nextEdge)).length = l.length
    rw [List.length_map, i1, hlen]
  simp only [amplitude]
  rw [if_neg (by omega)]
  rw [if_neg (by rw [hmslen, hfrlen]; omega)]
  have hK : (copyCircuit c).nextEdge = 2 * c.nextEdge := rfl
  have hmain := amp_eq_stateAt (copyCircuit c).nodes (copyCircuit c).pairs
    (copyCircuit c).front l (copyCircuit c).nextEdge hch hfrlen ?_ ?_ ?_
  · rw [hmain]
    show Except.ok (netTensor (copyCircuit c).nodes (copyCircuit c).pairs
      (copyCircuit c).front (l.map charBit)) = _
    rw [show netTensor (copyCircuit c).nodes (copyCircuit c).pairs
        (copyCircuit c).front (l.map charBit)
      = netTensor c.nodes c.pairs c.front (l.map charBit) from
        netTensor_shift c.nextEdge c.nodes c.pairs c.front (l.map charBit)]
    rfl
  · intro f hf
    rcases List.mem_map.mp hf with ⟨e, he, rfl⟩
    have := i3 e he
    rw [hK]
    omega
  · intro nd hnd e he
    rcases List.mem_map.mp hnd with ⟨nd0, hnd0, rfl⟩
    rcases List.mem_map.mp he with ⟨e1, he1, rfl⟩
    have := i4 nd0 hnd0 e1 he1
    rw [hK]
    omega
  · intro p hp
    rcases List.mem_map.mp hp with ⟨p0, hp0, rfl⟩
    have := i5 p0 hp0
    rw [hK]
    constructor <;> omega

/-! ### Failure analysis of the gate loop -/

theorem apply_general_gate_err (c : Circuit α) (g : GateSpec α) (index : List Int)
    (hnd : index.Nodup) :
    (apply_general_gate c g index).2 =
      (agLoop (mkGate g c.nextEdge).edges index.length index 0 c.front c.pairs).2 := by
  unfold apply_general_gate
  rw [if_pos hnd]
  rcases h : agLoop (mkGate g c.nextEdge).edges index.length index 0 c.front c.pairs
    with ⟨⟨fr, ps⟩, err⟩
  cases err <;> simp

theorem apply_general_gate_pairs (c : Circuit α) (g : GateSpec α) (index : List Int)
    (hnd : index.Nodup) :
    (apply_general_gate c g index).1.pairs =
      (agLoop (mkGate g c.nextEdge).edges index.length index 0 c.front c.pairs).1.2 := by
  unfold apply_general_gate
  rw [if_pos hnd]
  rcases h : agLoop (mkGate g c.nextEdge).edges index.length index 0 c.front c.pairs
    with ⟨⟨fr, ps⟩, err⟩
  cases err <;> simp

/-- A gate too small for the supplied targets always makes the loop raise. -/
theorem agLoop_fail (gE : List Nat) (noe : Nat) :
    ∀ (inds : List Int) (i : Nat) (fr : List Nat) (ps : List (Nat × Nat)),
      inds ≠ [] → (∀ q ∈ inds, pyIdx fr.length q ≠ none) →
      gE.length < i + inds.length + noe →
      ∃ e, (agLoop gE noe inds i fr ps).2 = some e
  | [], _, _, _, hne, _, _ => absurd rfl hne
  | ind :: rest, i, fr, ps, _, hpy, hlt => by
    cases h0 : gE.get? i with
    | none => exact ⟨.indexError, by simp only [agLoop, h0]⟩
    | some ein =>
      cases h1 : pyIdx fr.length ind with
      | none => exact absurd h1 (hpy ind (List.mem_cons_self _ _))
      | some j =>
        cases h2 : gE.get? (i + noe) with
        | none => exact ⟨.indexError, by simp only [agLoop, h0, h1, h2]⟩
        | some eout =>
          have hlt2 : i + noe < gE.length := by
            rcases List.get?_eq_some.mp h2 with ⟨hh, _⟩
            exact hh
          cases rest with
          | nil =>
            simp only [List.length_cons, List.length_nil] at hlt
            omega
          | cons r rs =>
            have ih := agLoop_fail gE noe (r :: rs) (i + 1) (fr.set j eout)
              (ps ++ [(ein, fr.getD j 0)]) (by simp)
              (fun q hq => by
                rw [List.length_set]
                exact hpy q (List.mem_cons_of_mem _ hq))
              (by simp only [List.length_cons] at hlt ⊢; omega)
            rcases ih with ⟨e, he⟩
            refine ⟨e, ?_⟩
            rw [agLoop_cons_ok gE noe ind (r :: rs) i fr ps ein h0 j h1 eout h2]
            exact he

/-- The loop never removes connections: the resulting pair list extends
the input pair list. -/
theorem agLoop_pairs_mono (gE : List Nat) (noe : Nat) :
    ∀ (inds : List Int) (i : Nat) (fr : List Nat) (ps : List (Nat × Nat)),
      ∃ t, (agLoop gE noe inds i fr ps).1.2 = ps ++ t
  | [], _, _, ps => ⟨[], by simp [agLoop]⟩
  | ind :: rest, i, fr, ps => by
    cases h0 : gE.get? i with
    | none => exact ⟨[], by simp only [agLoop, h0, List.append_nil]⟩
    | some ein =>
      cases h1 : pyIdx fr.length ind with
      | none => exact ⟨[], by simp only [agLoop, h0, h1, List.append_nil]⟩
      | some j =>
        cases h2 : gE.get? (i + noe) with
        | none =>
          exact ⟨[(ein, fr.getD j 0)], by simp only [agLoop, h0, h1, h2]⟩
        | some eout =>
          rcases agLoop_pairs_mono gE noe rest (i + 1) (fr.set j eout)
            (ps ++ [(ein, fr.getD j 0)]) with ⟨t, ht⟩
          refine ⟨[(ein, fr.getD j 0)] ++ t, ?_⟩
          rw [agLoop_cons_ok gE noe ind rest i fr ps ein h0 j h1 eout h2, ht,
            List.append_assoc]

/-- With at least one gate edge and an in-range first target, the loop
records the first connection whatever happens later. -/
theorem agLoop_first_append (gE : List Nat) (noe : Nat) (q : Nat) (rest : List Int)
    (fr : List Nat) (ps : List (Nat × Nat))
    (hq : q < fr.length) (hg : 0 < gE.length) :
    ∃ t, (agLoop gE noe (Int.ofNat q :: rest) 0 fr ps).1.2 =
      ps ++ [(gE.getD 0 0, fr.getD q 0)] ++ t := by
  have h0 : gE.get? 0 = some (gE.getD 0 0) := @get?_eq_some_getD gE 0 hg
  have h1 : pyIdx fr.length (Int.ofNat q) = some q := pyIdx_ofNat fr.length q hq
  cases h2 : gE.get? (0 + noe) with
  | none => exact ⟨[], by simp only [agLoop, h0, h1, h2, List.append_assoc, List.append_nil]⟩
  | some eout =>
    rcases agLoop_pairs_mono gE noe rest 1 (fr.set q eout)
      (ps ++ [(gE.getD 0 0, fr.getD q 0)]) with ⟨t, ht⟩
    refine ⟨t, ?_⟩
    rw [agLoop_cons_ok gE noe (Int.ofNat q) rest 0 fr ps (gE.getD 0 0) h0 q h1
      eout h2]
    exact ht

theorem map_charBit_replicate_iff (l : List Char) (n : Nat)
    (hch : ∀ ch ∈ l, ch = '0' ∨ ch = '1') (hlen : l.length = n) :
    (l.map charBit = List.replicate n 0 ↔ l = List.replicate n '0') := by
  rw [List.eq_replicate_iff, List.eq_replicate_iff]
  constructor
  · rintro ⟨h1, h2⟩
    refine ⟨hlen, fun ch hc => ?_⟩
    rcases hch ch hc with h | h
    · exact h
    · exact absurd (h2 (charBit ch) (List.mem_map_of_mem _ hc))
        (by rw [h]; decide)
  · rintro ⟨h1, h2⟩
    refine ⟨by rw [List.length_map, hlen], fun x hx => ?_⟩
    rcases List.mem_map.mp hx with ⟨ch, hc, rfl⟩
    rw [h2 ch hc]
    decide

theorem pyIdx_neg_val (len : Nat) (i : Int) (h1 : -(len:Int) ≤ i) (h2 : i < 0) :
    pyIdx len i = some (i + len).toNat := by
  simp only [pyIdx]
  rw [if_pos h2, if_pos ⟨by omega, by omega⟩]

theorem bNode_edges [Zero α] [One α] (n k : Nat) :
    (bNode n k : Node α).edges =
      if k = 0 ∨ k = n - 1 then [3 * k, 3 * k + 1]
      else [3 * k, 3 * k + 1, 3 * k + 2] := by
  unfold bNode
  by_cases h : k = 0 ∨ k = n - 1
  · rw [if_pos h, if_pos h]
  · rw [if_neg h, if_neg h]

theorem bNode_entry_eq [Zero α] [One α] (n k : Nat) :
    (bNode n k : Node α).entry = unitEntry := by
  unfold bNode
  by_cases h : k = 0 ∨ k = n - 1
  · rw [if_pos h]
  · rw [if_neg h]

theorem bNode_dims_headD [Zero α] [One α] (n k : Nat) :
    (bNode n k : Node α).dims.headD 0 = 2 := by
  unfold bNode
  by_cases h : k = 0 ∨ k = n - 1
  · rw [if_pos h]
    rfl
  · rw [if_neg h]
    rfl

theorem initPairs_mem14 (n : Nat) : (1, 4) ∈ initPairs n := by
  unfold initPairs
  refine List.mem_append.mpr (Or.inr ?_)
  by_cases h3 : n < 3
  · rw [if_pos h3]
    simp
  · rw [if_neg h3]
    simp

theorem initPairs_mem_end (n : Nat) (h3 : ¬ n < 3) :
    (3 * (n - 1) + 1, 3 * (n - 2) + 2) ∈ initPairs n := by
  unfold initPairs
  refine List.mem_append.mpr (Or.inr ?_)
  rw [if_neg h3]
  simp

theorem initPairs_mem_chain (n j : Nat) (hj : j < n - 3) :
    (3 * (j + 1) + 2, 3 * (j + 2) + 1) ∈ initPairs n := by
  unfold initPairs
  refine List.mem_append.mpr (Or.inl ?_)
  exact List.mem_map.mpr ⟨j, List.mem_range.mpr hj, rfl⟩

theorem initC_nodes_getD [Zero α] [One α] (n k : Nat) (hk : k < n) :
    (initC n : Circuit α).nodes.getD k (bNode n 0) = bNode n k := by
  show ((List.range n).map (bNode n)).getD k (bNode n 0) = bNode n k
  exact getD_map_range n k (bNode n 0) (bNode n) hk

theorem initC_front_getD' [Zero α] [One α] (n k : Nat) (hk : k < n) :
    (initC n : Circuit α).front.getD k 0 = 3 * k := by
  show ((List.range n).map (fun j => 3 * j)).getD k 0 = 3 * k
  exact getD_map_range n k 0 (fun j => 3 * j) hk

/-! ### The claims -/

/-- C1: for every qubit count `n ≥ 2`, the fresh circuit's wavefunction is
the all-zero basis vector (1 at index 0 of the `2 ^ n` entries, 0
elsewhere), and its amplitude is 1 on the all-`'0'` bitstring of length
`n` and 0 on every other bitstring of that length. -/
theorem C1_fresh_circuit_state {α : Type} [CommSemiring α] (n : Nat) (hn : 2 ≤ n) :
    wavefunction (initC n : Circuit α) =
      (List.range (2 ^ n)).map (fun j => if j = 0 then (1:α) else 0) ∧
    ∀ l : List Char, l.length = n → (∀ ch ∈ l, ch = '0' ∨ ch = '1') →
      amplitude (initC n : Circuit α) l =
        .ok (if l = List.replicate n '0' then (1:α) else 0) := by
  constructor
  · rw [wavefunction_eq_stateAt]
    show (List.range (2 ^ n)).map
      (fun j => stateAt (initC n : Circuit α) (bitsOf n j)) = _
    refine List.map_congr_left (fun j hj => ?_)
    have hj' : j < 2 ^ n := List.mem_range.mp hj
    rw [stateAt_initC n hn (bitsOf n j)]
    exact if_congr (bitsOf_eq_replicate_iff n j hj') rfl rfl
  · intro l hlen hch
    rw [amplitude_ok (initC n : Circuit α) (inv_initC n hn) l hlen hch]
    rw [stateAt_initC n hn (l.map charBit)]
    exact congrArg Except.ok
      (if_congr (map_charBit_replicate_iff l n hch hlen) rfl rfl)

/-- C1 witness at `n = 2` over the integers. -/
theorem C1_fresh_circuit_state_witness :
    2 ≤ 2 ∧
    (wavefunction (initC 2 : Circuit Int) =
        (List.range (2 ^ 2)).map (fun j => if j = 0 then (1:Int) else 0) ∧
      ∀ l : List Char, l.length = 2 → (∀ ch ∈ l, ch = '0' ∨ ch = '1') →
        amplitude (initC 2 : Circuit Int) l =
          .ok (if l = List.replicate 2 '0' then (1:Int) else 0)) :=
  ⟨by norm_num, C1_fresh_circuit_state 2 (by norm_num)⟩

/-- C2: on every reachable circuit, the amplitude of a valid bitstring
equals the wavefunction entry at the index whose big-endian binary
expansion is the bitstring (qubit 0 most significant). -/
theorem C2_amplitude_matches_wavefunction {α : Type} [CommSemiring α]
    (c : Circuit α) (hr : Reachable c) (l : List Char)
    (hlen : l.length = c.nqubits) (hch : ∀ ch ∈ l, ch = '0' ∨ ch = '1') :
    amplitude c l = .ok ((wavefunction c).getD (toIdx (l.map charBit)) 0) := by
  have hbits : ∀ x ∈ l.map charBit, x < 2 := by
    intro x hx
    rcases List.mem_map.mp hx with ⟨ch, hc, rfl⟩
    unfold charBit
    split <;> omega
  have hblen : (l.map charBit).length = c.nqubits := by rw [List.length_map, hlen]
  have hidx : toIdx (l.map charBit) < 2 ^ c.nqubits := by
    have := toIdx_lt (l.map charBit) hbits
    rwa [hblen] at this
  have hb2 : bitsOf c.nqubits (toIdx (l.map charBit)) = l.map charBit := by
    rw [← hblen]
    exact bitsOf_toIdx (l.map charBit) hbits
  rw [amplitude_ok c (reachable_inv hr) l hlen hch, wavefunction_eq_stateAt,
    getD_map_range _ _ _ _ hidx, hb2]

/-- C2 witness: the two-qubit fresh circuit at the bitstring 01. -/
theorem C2_amplitude_matches_wavefunction_witness :
    Reachable (initC 2 : Circuit Int) ∧ (['0', '1'] : List Char).length = 2 ∧
    amplitude (initC 2 : Circuit Int) ['0', '1'] =
      .ok ((wavefunction (initC 2 : Circuit Int)).getD
        (toIdx (['0', '1'].map charBit)) 0) :=
  ⟨Reachable.base 2 (by norm_num), rfl,
    C2_amplitude_matches_wavefunction (initC 2) (Reachable.base 2 (by norm_num))
      ['0', '1'] rfl (by decide)⟩

/-- C3: applying a `k`-ary gate of rank `2k` on pairwise-distinct
in-range qubits succeeds, connects input edge `i` of the gate node to
`front[q_i]` (in order), sets `front[q_i]` to output edge `k + i`,
appends the gate node once at the end of `nodes`, and leaves every other
front entry unchanged. -/
theorem C3_general_gate_rewires {α : Type} (c : Circuit α) (g : GateSpec α)
    (qs : List Nat) (hnd : qs.Nodup) (hq : ∀ q ∈ qs, q < c.front.length)
    (hg : g.dims.length = 2 * qs.length) :
    (apply_general_gate c g (qs.map Int.ofNat)).2 = none ∧
    (apply_general_gate c g (qs.map Int.ofNat)).1.nodes =
      c.nodes ++ [mkGate g c.nextEdge] ∧
    (apply_general_gate c g (qs.map Int.ofNat)).1.pairs = c.pairs ++
      (List.range qs.length).map (fun i =>
        ((mkGate g c.nextEdge).edges.getD i 0, c.front.getD (qs.getD i 0) 0)) ∧
    (apply_general_gate c g (qs.map Int.ofNat)).1.front.length = c.front.length ∧
    (∀ i, i < qs.length →
      (apply_general_gate c g (qs.map Int.ofNat)).1.front.getD (qs.getD i 0) 0 =
        (mkGate g c.nextEdge).edges.getD (qs.length + i) 0) ∧
    (∀ q, q ∉ qs →
      (apply_general_gate c g (qs.map Int.ofNat)).1.front.getD q 0 =
        c.front.getD q 0) := by
  obtain ⟨s1, _, _, s4, s5, s6, s7, s8⟩ := apply_general_gate_spec c g qs hnd hq hg
  have hedge : ∀ i, i < g.dims.length →
      (mkGate g c.nextEdge).edges.getD i 0 = c.nextEdge + i := by
    intro i hi
    show ((List.range g.dims.length).map (fun j => c.nextEdge + j)).getD i 0 = _
    rw [getD_map_range g.dims.length i 0 _ hi]
  refine ⟨s1, s4, ?_, s5, ?_, s7⟩
  · rw [s8]
    congr 1
    refine List.map_congr_left (fun i hi => ?_)
    have hi' : i < qs.length := List.mem_range.mp hi
    rw [hedge i (by omega)]
  · intro i hi
    rw [s6 i hi, hedge (qs.length + i) (by omega)]

/-- C3 witness: CNOT on qubits 0, 1 of the fresh two-qubit circuit. -/
theorem C3_general_gate_rewires_witness :
    ([0, 1] : List Nat).Nodup ∧
    (∀ q ∈ ([0, 1] : List Nat), q < (initC 2 : Circuit Int).front.length) ∧
    cnotGate.dims.length = 2 * ([0, 1] : List Nat).length ∧
    ((apply_general_gate (initC 2 : Circuit Int) cnotGate
        (([0, 1] : List Nat).map Int.ofNat)).2 = none ∧
      (apply_general_gate (initC 2 : Circuit Int) cnotGate
        (([0, 1] : List Nat).map Int.ofNat)).1.nodes =
        (initC 2 : Circuit Int).nodes ++
          [mkGate cnotGate (initC 2 : Circuit Int).nextEdge] ∧
      (apply_general_gate (initC 2 : Circuit Int) cnotGate
        (([0, 1] : List Nat).map Int.ofNat)).1.pairs =
        (initC 2 : Circuit Int).pairs ++
        (List.range ([0, 1] : List Nat).length).map (fun i =>
          ((mkGate cnotGate (initC 2 : Circuit Int).nextEdge).edges.getD i 0,
            (initC 2 : Circuit Int).front.getD (([0, 1] : List Nat).getD i 0) 0)) ∧
      (apply_general_gate (initC 2 : Circuit Int) cnotGate
        (([0, 1] : List Nat).map Int.ofNat)).1.front.length =
        (initC 2 : Circuit Int).front.length ∧
      (∀ i, i < ([0, 1] : List Nat).length →
        (apply_general_gate (initC 2 : Circuit Int) cnotGate
          (([0, 1] : List Nat).map Int.ofNat)).1.front.getD
            (([0, 1] : List Nat).getD i 0) 0 =
          (mkGate cnotGate (initC 2 : Circuit Int).nextEdge).edges.getD
            (([0, 1] : List Nat).length + i) 0) ∧
      (∀ q, q ∉ ([0, 1] : List Nat) →
        (apply_general_gate (initC 2 : Circuit Int) cnotGate
          (([0, 1] : List Nat).map Int.ofNat)).1.front.getD q 0 =
          (initC 2 : Circuit Int).front.getD q 0)) :=
  ⟨by decide, by decide, by decide,
    C3_general_gate_rewires (initC 2) cnotGate [0, 1] (by decide) (by decide)
      (by decide)⟩

/-- C4 counterexample: a rank-4 gate applied to a single qubit has rank
different from `2 × 1`, yet `apply_general_gate` reports no error — the
claimed synchronous rank check does not exist. -/
theorem C4_counterexample :
    cnotGate.dims.length ≠ 2 * ([(0 : Int)] : List Int).length ∧
    (apply_general_gate (initC 2 : Circuit Int) cnotGate [(0 : Int)]).2 = none :=
  ⟨by decide, rfl⟩

/-- C4 (amended): there is no rank validation.  A call on distinct
in-range qubits raises no error exactly when the gate has at least
`2k` edges (oversized gates are accepted silently); and when the rank is
positive but below `2k` the call fails only after it has already
connected at least one new pair, so the failure is not all-or-nothing. -/
theorem C4_no_rank_validation {α : Type} (c : Circuit α) (g : GateSpec α)
    (qs : List Nat) (hnd : qs.Nodup) (hq : ∀ q ∈ qs, q < c.front.length)
    (hne : qs ≠ []) :
    ((apply_general_gate c g (qs.map Int.ofNat)).2 = none ↔
      2 * qs.length ≤ g.dims.length) ∧
    (1 ≤ g.dims.length → g.dims.length < 2 * qs.length →
      (apply_general_gate c g (qs.map Int.ofNat)).1.pairs ≠ c.pairs) := by
  have hndI : (qs.map Int.ofNat).Nodup :=
    hnd.map (fun a b h => Int.ofNat.inj h)
  have hlenE : (mkGate g c.nextEdge).edges.length = g.dims.length := by
    simp [mkGate]
  have hmaplen : (qs.map Int.ofNat).length = qs.length := List.length_map _ _
  constructor
  · rw [apply_general_gate_err c g _ hndI, hmaplen]
    constructor
    · intro hnone
      by_contra hlt
      have hlt' : g.dims.length < 2 * qs.length := by omega
      have hpy : ∀ q ∈ qs.map Int.ofNat, pyIdx c.front.length q ≠ none := by
        intro q hqm
        rcases List.mem_map.mp hqm with ⟨q0, hq0, rfl⟩
        rw [pyIdx_ofNat c.front.length q0 (hq q0 hq0)]
        simp
      have hne' : qs.map Int.ofNat ≠ [] := by
        intro h
        exact hne (List.map_eq_nil_iff.mp h)
      obtain ⟨e, he⟩ := agLoop_fail (mkGate g c.nextEdge).edges qs.length
        (qs.map Int.ofNat) 0 c.front c.pairs hne' hpy
        (by rw [hlenE, hmaplen]; omega)
      rw [he] at hnone
      exact Option.noConfusion hnone
    · intro hge
      have hbounds : ∀ pos, pos < qs.length →
          0 + pos < (mkGate g c.nextEdge).edges.length ∧
          0 + pos + qs.length < (mkGate g c.nextEdge).edges.length := by
        intro pos hp
        rw [hlenE]
        omega
      exact (agLoop_spec (mkGate g c.nextEdge).edges qs.length qs 0 c.front
        c.pairs hnd hq hbounds).1
  · intro hg1 hg2
    rcases qs with _ | ⟨q0, rest⟩
    · exact absurd rfl hne
    · rw [apply_general_gate_pairs c g _ hndI]
      simp only [List.map_cons]
      obtain ⟨t, ht⟩ := agLoop_first_append (mkGate g c.nextEdge).edges
        (Int.ofNat q0 :: rest.map Int.ofNat).length q0 (rest.map Int.ofNat)
        c.front c.pairs (hq q0 (List.mem_cons_self q0 rest)) (by omega)
      rw [ht]
      intro heq
      have hlen := congrArg List.length heq
      simp only [List.length_append, List.length_cons, List.length_nil] at hlen
      omega

/-- C4 amended-theorem witness: CNOT (rank 4) on qubits 0, 1 of the
fresh two-qubit circuit. -/
theorem C4_no_rank_validation_witness :
    ([0, 1] : List Nat).Nodup ∧
    (∀ q ∈ ([0, 1] : List Nat), q < (initC 2 : Circuit Int).front.length) ∧
    ([0, 1] : List Nat) ≠ [] ∧
    (((apply_general_gate (initC 2 : Circuit Int) cnotGate
        (([0, 1] : List Nat).map Int.ofNat)).2 = none ↔
      2 * ([0, 1] : List Nat).length ≤ cnotGate.dims.length) ∧
    (1 ≤ cnotGate.dims.length →
      cnotGate.dims.length < 2 * ([0, 1] : List Nat).length →
      (apply_general_gate (initC 2 : Circuit Int) cnotGate
        (([0, 1] : List Nat).map Int.ofNat)).1.pairs ≠
        (initC 2 : Circuit Int).pairs)) :=
  ⟨by decide, by decide, by decide,
    C4_no_rank_validation (initC 2) cnotGate [0, 1] (by decide) (by decide)
      (by decide)⟩

/-- C6: `amplitude` fails exactly when the bitstring's length differs
from the qubit count or some character is neither '0' nor '1' (the
length mismatch raises the assertion, an invalid character leaves the
measurement list short and raises the subsequent index error).  The
embedding is a pure function of the circuit, so the live circuit is
unchanged by construction. -/
theorem C6_amplitude_error_iff {α : Type} [CommSemiring α] (c : Circuit α)
    (hfr : c.front.length = c.nqubits) (l : List Char) :
    (∃ e, amplitude c l = .error e) ↔
      (l.length ≠ c.nqubits ∨ ∃ ch ∈ l, ch ≠ '0' ∧ ch ≠ '1') := by
  by_cases hlen : l.length = c.nqubits
  · have hnn : ¬ l.length ≠ c.nqubits := not_not.mpr hlen
    by_cases hch : ∀ ch ∈ l, ch = '0' ∨ ch = '1'
    · have hms : (measureNodes l 0 (copyCircuit c).nextEdge :
          List (Node α)).length = l.length :=
        (measureNodes_length_eq_iff l 0 (copyCircuit c).nextEdge).mpr hch
      have hfl : (copyCircuit c).front.length = l.length := by
        show (c.front.map (fun e => e + c.nextEdge)).length = l.length
        rw [List.length_map, hfr, hlen]
      have hok : amplitude c l = .ok (netTensor
          ((copyCircuit c).nodes ++ measureNodes l 0 (copyCircuit c).nextEdge)
          ((copyCircuit c).pairs ++ (copyCircuit c).front.zip
            ((measureNodes l 0 (copyCircuit c).nextEdge : List (Node α)).map
              (fun m => m.edges.headD 0))) [] []) := by
        simp only [amplitude]
        rw [if_neg hnn, if_neg (by rw [hms, hfl]; omega)]
      rw [hok]
      constructor
      · rintro ⟨e, he⟩
        exact absurd he (by simp)
      · rintro (h | ⟨ch, hc, h0, h1⟩)
        · exact absurd hlen h
        · rcases hch ch hc with h | h
          · exact absurd h h0
          · exact absurd h h1
    · have hle : (measureNodes l 0 (copyCircuit c).nextEdge :
          List (Node α)).length ≤ l.length :=
        measureNodes_length_le l 0 (copyCircuit c).nextEdge
      have hml : (measureNodes l 0 (copyCircuit c).nextEdge :
          List (Node α)).length < l.length :=
        lt_of_le_of_ne hle
          (fun he => hch
            ((measureNodes_length_eq_iff l 0 (copyCircuit c).nextEdge).mp he))
      have herr : amplitude c l = .error .indexError := by
        simp only [amplitude]
        rw [if_neg hnn, if_pos (Or.inl hml)]
      rw [herr]
      constructor
      · intro _
        right
        push_neg at hch
        exact hch
      · intro _
        exact ⟨.indexError, rfl⟩
  · have herr : amplitude c l = .error .assertionError := by
      simp only [amplitude]
      rw [if_pos hlen]
    rw [herr]
    exact ⟨fun _ => Or.inl hlen, fun _ => ⟨.assertionError, rfl⟩⟩

/-- C6 witness: a bitstring with an invalid character on the fresh
two-qubit circuit. -/
theorem C6_amplitude_error_iff_witness :
    (initC 2 : Circuit Int).front.length = (initC 2 : Circuit Int).nqubits ∧
    ((∃ e, amplitude (initC 2 : Circuit Int) ['0', '2'] = .error e) ↔
      ((['0', '2'] : List Char).length ≠ (initC 2 : Circuit Int).nqubits ∨
        ∃ ch ∈ (['0', '2'] : List Char), ch ≠ '0' ∧ ch ≠ '1')) :=
  ⟨rfl, C6_amplitude_error_iff (initC 2) rfl ['0', '2']⟩

/-- C7: a duplicated target qubit makes `apply_double_gate` and
`apply_general_gate` fail with the assertion before any rewiring:
`front`, `nodes` and `pairs` are unchanged and a subsequent
`wavefunction` returns the same result as before the failed call. -/
theorem C7_duplicate_qubit_rejected {α : Type} [CommSemiring α] (c : Circuit α)
    (g : GateSpec α) :
    (∀ i : Int,
      (apply_double_gate c g i i).2 = some .assertionError ∧
      (apply_double_gate c g i i).1.front = c.front ∧
      (apply_double_gate c g i i).1.nodes = c.nodes ∧
      (apply_double_gate c g i i).1.pairs = c.pairs ∧
      wavefunction (apply_double_gate c g i i).1 = wavefunction c) ∧
    (∀ index : List Int, ¬ index.Nodup →
      (apply_general_gate c g index).2 = some .assertionError ∧
      (apply_general_gate c g index).1.front = c.front ∧
      (apply_general_gate c g index).1.nodes = c.nodes ∧
      (apply_general_gate c g index).1.pairs = c.pairs ∧
      wavefunction (apply_general_gate c g index).1 = wavefunction c) := by
  constructor
  · intro i
    have hres : apply_double_gate c g i i =
        ({ c with nextEdge := c.nextEdge + g.dims.length }, some .assertionError) := by
      unfold apply_double_gate
      rw [if_pos rfl]
    rw [hres]
    exact ⟨rfl, rfl, rfl, rfl, wavefunction_nextEdge c _⟩
  · intro index hdup
    have hres : apply_general_gate c g index =
        ({ c with nextEdge := c.nextEdge + g.dims.length }, some .assertionError) := by
      unfold apply_general_gate
      rw [if_neg hdup]
    rw [hres]
    exact ⟨rfl, rfl, rfl, rfl, wavefunction_nextEdge c _⟩

/-- C7 witness: a double gate on qubits `(0, 0)` and a general gate on
`[1, 1]` over the fresh two-qubit circuit. -/
theorem C7_duplicate_qubit_rejected_witness :
    ¬ ([1, 1] : List Int).Nodup ∧
    ((apply_double_gate (initC 2 : Circuit Int) cnotGate 0 0).2 =
        some .assertionError ∧
      (apply_double_gate (initC 2 : Circuit Int) cnotGate 0 0).1.front =
        (initC 2 : Circuit Int).front ∧
      (apply_double_gate (initC 2 : Circuit Int) cnotGate 0 0).1.nodes =
        (initC 2 : Circuit Int).nodes ∧
      (apply_double_gate (initC 2 : Circuit Int) cnotGate 0 0).1.pairs =
        (initC 2 : Circuit Int).pairs ∧
      wavefunction (apply_double_gate (initC 2 : Circuit Int) cnotGate 0 0).1 =
        wavefunction (initC 2 : Circuit Int)) ∧
    ((apply_general_gate (initC 2 : Circuit Int) cnotGate [1, 1]).2 =
        some .assertionError ∧
      (apply_general_gate (initC 2 : Circuit Int) cnotGate [1, 1]).1.front =
        (initC 2 : Circuit Int).front ∧
      (apply_general_gate (initC 2 : Circuit Int) cnotGate [1, 1]).1.nodes =
        (initC 2 : Circuit Int).nodes ∧
      (apply_general_gate (initC 2 : Circuit Int) cnotGate [1, 1]).1.pairs =
        (initC 2 : Circuit Int).pairs ∧
      wavefunction (apply_general_gate (initC 2 : Circuit Int) cnotGate
        [1, 1]).1 = wavefunction (initC 2 : Circuit Int)) :=
  ⟨by decide,
    (C7_duplicate_qubit_rejected (initC 2) cnotGate).1 0,
    (C7_duplicate_qubit_rejected (initC 2) cnotGate).2 [1, 1] (by decide)⟩

/-- C8: on every reachable circuit, `front` has exactly `nqubits`
entries, and each entry is a dangling edge (in no connected pair)
belonging to some node of the circuit; reachability closes this under
every successful gate application. -/
theorem C8_front_invariant {α : Type} [Zero α] [One α] (c : Circuit α)
    (hr : Reachable c) :
    c.front.length = c.nqubits ∧
    ∀ e ∈ c.front, (∃ nd ∈ c.nodes, e ∈ nd.edges) ∧
      ∀ p ∈ c.pairs, e ≠ p.1 ∧ e ≠ p.2 := by
  obtain ⟨i1, _, _, _, _, i6, i7⟩ := reachable_inv hr
  exact ⟨i1, fun e he => ⟨i6 e he, i7 e he⟩⟩

/-- C8 witness at the fresh two-qubit circuit. -/
theorem C8_front_invariant_witness :
    Reachable (initC 2 : Circuit Int) ∧
    ((initC 2 : Circuit Int).front.length = (initC 2 : Circuit Int).nqubits ∧
      ∀ e ∈ (initC 2 : Circuit Int).front,
        (∃ nd ∈ (initC 2 : Circuit Int).nodes, e ∈ nd.edges) ∧
        ∀ p ∈ (initC 2 : Circuit Int).pairs, e ≠ p.1 ∧ e ≠ p.2) :=
  ⟨Reachable.base 2 (by norm_num),
    C8_front_invariant (initC 2) (Reachable.base 2 (by norm_num))⟩

/-- C9: `wavefunction` (computed through the deep copy) returns exactly
the live network's contraction values, and on a reachable circuit the
snapshot's edge ids are disjoint from every live node's edge ids — the
snapshot shares no structure with the live circuit. -/
theorem C9_extraction_read_only {α : Type} [CommSemiring α] (c : Circuit α) :
    wavefunction c =
      (List.range (2 ^ c.nqubits)).map (fun j => stateAt c (bitsOf c.nqubits j)) ∧
    (Reachable c → ∀ nd ∈ (copyCircuit c).nodes, ∀ e ∈ nd.edges,
      ∀ nd2 ∈ c.nodes, e ∉ nd2.edges) := by
  refine ⟨wavefunction_eq_stateAt c, fun hr nd hnd e he nd2 hnd2 hmem => ?_⟩
  obtain ⟨_, _, _, i4, _, _, _⟩ := reachable_inv hr
  rcases List.mem_map.mp hnd with ⟨nd0, hnd0, rfl⟩
  rcases List.mem_map.mp he with ⟨e1, he1, rfl⟩
  have hlt := i4 nd2 hnd2 _ hmem
  omega

/-- C9 witness at the fresh two-qubit circuit. -/
theorem C9_extraction_read_only_witness :
    wavefunction (initC 2 : Circuit Int) =
      (List.range (2 ^ (initC 2 : Circuit Int).nqubits)).map
        (fun j => stateAt (initC 2 : Circuit Int)
          (bitsOf (initC 2 : Circuit Int).nqubits j)) ∧
    (∀ nd ∈ (copyCircuit (initC 2 : Circuit Int)).nodes, ∀ e ∈ nd.edges,
      ∀ nd2 ∈ (initC 2 : Circuit Int).nodes, e ∉ nd2.edges) :=
  ⟨(C9_extraction_read_only (initC 2)).1,
    (C9_extraction_read_only (initC 2)).2 (Reachable.base 2 (by norm_num))⟩

/-- C10: a negative target index `i` with `-nqubits ≤ i < 0` is silently
accepted by the gate-application entry points and aliases qubit
`nqubits + i` (Python list indexing); with a rank-2 gate the call
succeeds. -/
theorem C10_negative_index_python_semantics {α : Type} (c : Circuit α)
    (g : GateSpec α) (i : Int) (hfr : c.front.length = c.nqubits)
    (h1 : -(c.nqubits : Int) ≤ i) (h2 : i < 0) :
    apply_single_gate c g i = apply_single_gate c g (i + c.nqubits) ∧
    apply_general_gate c g [i] = apply_general_gate c g [i + c.nqubits] ∧
    (g.dims.length = 2 → (apply_single_gate c g i).2 = none) := by
  have h1' : -(c.front.length : Int) ≤ i := by rw [hfr]; exact h1
  have hpy : pyIdx c.front.length i = pyIdx c.front.length (i + c.nqubits) := by
    rw [pyIdx_neg_eq c.front.length i h1' h2]
    congr 2
    rw [hfr]
  refine ⟨?_, ?_, ?_⟩
  · unfold apply_single_gate
    rw [hpy]
  · have hloop : ∀ (gE : List Nat) (ps : List (Nat × Nat)),
        agLoop gE 1 [i] 0 c.front ps = agLoop gE 1 [i + c.nqubits] 0 c.front ps := by
      intro gE ps
      simp only [agLoop]
      rw [hpy]
    unfold apply_general_gate
    rw [if_pos (List.nodup_singleton i), if_pos (List.nodup_singleton _)]
    have hl1 : ([i] : List Int).length = 1 := rfl
    have hl2 : ([i + (c.nqubits : Int)] : List Int).length = 1 := rfl
    rw [hl1, hl2, hloop]
  · intro hg
    have hglen : (mkGate g c.nextEdge).edges.length = 2 := by
      simp [mkGate, hg]
    have he0 : (mkGate g c.nextEdge).edges.get? 0 =
        some ((mkGate g c.nextEdge).edges.getD 0 0) :=
      @get?_eq_some_getD _ 0 (by omega)
    have he1 : (mkGate g c.nextEdge).edges.get? 1 =
        some ((mkGate g c.nextEdge).edges.getD 1 0) :=
      @get?_eq_some_getD _ 1 (by omega)
    have hj : pyIdx c.front.length i = some (i + (c.front.length : Int)).toNat :=
      pyIdx_neg_val c.front.length i h1' h2
    simp only [apply_single_gate, he0, hj, he1]

/-- C10 witness: `X` applied at index `-1` on the fresh two-qubit
circuit. -/
theorem C10_negative_index_python_semantics_witness :
    (initC 2 : Circuit Int).front.length = (initC 2 : Circuit Int).nqubits ∧
    (-((initC 2 : Circuit Int).nqubits : Int) ≤ -1 ∧ (-1 : Int) < 0) ∧
    (apply_single_gate (initC 2 : Circuit Int) xGate (-1) =
        apply_single_gate (initC 2 : Circuit Int) xGate
          (-1 + (initC 2 : Circuit Int).nqubits) ∧
      apply_general_gate (initC 2 : Circuit Int) xGate [-1] =
        apply_general_gate (initC 2 : Circuit Int) xGate
          [-1 + (initC 2 : Circuit Int).nqubits] ∧
      (xGate.dims.length = 2 →
        (apply_single_gate (initC 2 : Circuit Int) xGate (-1)).2 = none)) :=
  ⟨rfl, ⟨by decide, by norm_num⟩,
    C10_negative_index_python_semantics (initC 2) xGate (-1) rfl
      (by decide) (by norm_num)⟩

/-- C5 counterexample: on three qubits the boundary nodes have ranks
2, 3, 2 (shapes (2,1) and (2,1,1)), not the ranks 1, 2, 1 the claim
asserts for endpoint and interior nodes. -/
theorem C5_counterexample :
    (initC 3 : Circuit Int).nodes.map (fun nd => nd.edges.length) = [2, 3, 2] ∧
    ([2, 3, 2] : List Nat) ≠ [1, 2, 1] :=
  ⟨rfl, by decide⟩

/-- C5 (amended): construction with `n ≥ 2` creates exactly `n` boundary
nodes, each holding the 2-dimensional unit vector (1,0) along its first
axis (first dimension 2, entry 1 at index 0, entry 0 above); the
endpoint nodes have rank 2 and the interior ones rank 3 (the extra axes
are singletons), with one index pre-wired into a chain connecting every
adjacent pair of boundary nodes; `front[k]` is edge 0 of node `k`, is
dangling, and every other edge of node `k` is wired into some pair. -/
theorem C5_construction_structure {α : Type} [Zero α] [One α] (n : Nat)
    (hn : 2 ≤ n) :
    (initC n : Circuit α).nodes.length = n ∧
    (∀ k, k < n →
      ((initC n : Circuit α).nodes.getD k (bNode n 0)).dims.headD 0 = 2 ∧
      (∀ t : List Nat,
        ((initC n : Circuit α).nodes.getD k (bNode n 0)).entry (0 :: t) = 1 ∧
        ∀ v, ((initC n : Circuit α).nodes.getD k (bNode n 0)).entry
          ((v + 1) :: t) = 0) ∧
      ((initC n : Circuit α).nodes.getD k (bNode n 0)).edges.length =
        (if k = 0 ∨ k = n - 1 then 2 else 3) ∧
      (initC n : Circuit α).front.getD k 0 =
        ((initC n : Circuit α).nodes.getD k (bNode n 0)).edges.headD 0 ∧
      (∀ p ∈ (initC n : Circuit α).pairs,
        (initC n : Circuit α).front.getD k 0 ≠ p.1 ∧
        (initC n : Circuit α).front.getD k 0 ≠ p.2) ∧
      (∀ e ∈ ((initC n : Circuit α).nodes.getD k (bNode n 0)).edges,
        e ≠ (initC n : Circuit α).front.getD k 0 →
        ∃ p ∈ (initC n : Circuit α).pairs, e = p.1 ∨ e = p.2)) ∧
    (∀ k, k + 1 < n → ∃ p ∈ (initC n : Circuit α).pairs,
      (p.1 ∈ ((initC n : Circuit α).nodes.getD k (bNode n 0)).edges ∧
        p.2 ∈ ((initC n : Circuit α).nodes.getD (k + 1) (bNode n 0)).edges) ∨
      (p.1 ∈ ((initC n : Circuit α).nodes.getD (k + 1) (bNode n 0)).edges ∧
        p.2 ∈ ((initC n : Circuit α).nodes.getD k (bNode n 0)).edges)) := by
  have hpairs : (initC n : Circuit α).pairs = initPairs n := rfl
  refine ⟨by simp [initC, initNodes], ?_, ?_⟩
  · intro k hk
    rw [initC_nodes_getD n k hk, initC_front_getD' n k hk]
    refine ⟨bNode_dims_headD n k, ?_, ?_, ?_, ?_, ?_⟩
    · intro t
      rw [bNode_entry_eq]
      constructor
      · show (if (0 :: t).head? = some 0 then (1:α) else 0) = 1
        simp
      · intro v
        show (if ((v + 1) :: t).head? = some 0 then (1:α) else 0) = 0
        simp
    · rw [bNode_edges]
      by_cases h : k = 0 ∨ k = n - 1
      · rw [if_pos h, if_pos h]
        rfl
      · rw [if_neg h, if_neg h]
        rfl
    · rw [bNode_edges]
      by_cases h : k = 0 ∨ k = n - 1
      · rw [if_pos h]
        rfl
      · rw [if_neg h]
        rfl
    · rw [hpairs]
      intro p hp
      obtain ⟨⟨h1, _, _, _⟩, h2, _, _, _⟩ := initPairs_mem n hn p hp
      constructor <;> intro heq <;> omega
    · rw [bNode_edges, hpairs]
      intro e he hne
      by_cases h : k = 0 ∨ k = n - 1
      · rw [if_pos h] at he
        simp only [List.mem_cons, List.not_mem_nil, or_false] at he
        rcases he with rfl | rfl
        · exact absurd rfl hne
        · rcases h with rfl | hklast
          · exact ⟨(1, 4), initPairs_mem14 n, Or.inl (by norm_num)⟩
          · by_cases h3 : n < 3
            · have hk1 : k = 1 := by omega
              subst hk1
              exact ⟨(1, 4), initPairs_mem14 n, Or.inr (by norm_num)⟩
            · subst hklast
              exact ⟨(3 * (n - 1) + 1, 3 * (n - 2) + 2),
                initPairs_mem_end n h3, Or.inl rfl⟩
      · rw [if_neg h] at he
        push_neg at h
        obtain ⟨hk0, hklast⟩ := h
        simp only [List.mem_cons, List.not_mem_nil, or_false] at he
        rcases he with rfl | rfl | rfl
        · exact absurd rfl hne
        · by_cases hk1 : k = 1
          · subst hk1
            exact ⟨(1, 4), initPairs_mem14 n, Or.inr (by norm_num)⟩
          · have hj : k - 2 < n - 3 := by omega
            have he1 : 3 * ((k - 2) + 2) + 1 = 3 * k + 1 := by omega
            refine ⟨(3 * ((k - 2) + 1) + 2, 3 * ((k - 2) + 2) + 1),
              initPairs_mem_chain n (k - 2) hj, Or.inr ?_⟩
            rw [he1]
        · by_cases hkl2 : k = n - 2
          · have h3 : ¬ n < 3 := by omega
            refine ⟨(3 * (n - 1) + 1, 3 * (n - 2) + 2),
              initPairs_mem_end n h3, Or.inr ?_⟩
            rw [hkl2]
          · have hj : k - 1 < n - 3 := by omega
            have he1 : 3 * ((k - 1) + 1) + 2 = 3 * k + 2 := by omega
            refine ⟨(3 * ((k - 1) + 1) + 2, 3 * ((k - 1) + 2) + 1),
              initPairs_mem_chain n (k - 1) hj, Or.inl ?_⟩
            rw [he1]
  · intro k hk1
    have hk : k < n := by omega
    rw [initC_nodes_getD n k hk, initC_nodes_getD n (k + 1) hk1, hpairs]
    by_cases hk0 : k = 0
    · subst hk0
      refine ⟨(1, 4), initPairs_mem14 n, Or.inl ⟨?_, ?_⟩⟩
      · rw [bNode_edges, if_pos (Or.inl rfl)]
        simp
      · rw [bNode_edges]
        by_cases h : 0 + 1 = 0 ∨ 0 + 1 = n - 1
        · rw [if_pos h]
          simp
        · rw [if_neg h]
          simp
    · by_cases hkl : k + 1 = n - 1
      · have h3 : ¬ n < 3 := by omega
        refine ⟨(3 * (n - 1) + 1, 3 * (n - 2) + 2),
          initPairs_mem_end n h3, Or.inr ⟨?_, ?_⟩⟩
        · rw [bNode_edges, if_pos (Or.inr hkl)]
          have he1 : 3 * (n - 1) + 1 = 3 * (k + 1) + 1 := by omega
          rw [he1]
          simp
        · have hint : ¬(k = 0 ∨ k = n - 1) := by omega
          rw [bNode_edges, if_neg hint]
          have he2 : 3 * (n - 2) + 2 = 3 * k + 2 := by omega
          rw [he2]
          simp
      · have hj : k - 1 < n - 3 := by omega
        refine ⟨(3 * ((k - 1) + 1) + 2, 3 * ((k - 1) + 2) + 1),
          initPairs_mem_chain n (k - 1) hj, Or.inl ⟨?_, ?_⟩⟩
        · have hint : ¬(k = 0 ∨ k = n - 1) := by omega
          rw [bNode_edges, if_neg hint]
          have he1 : 3 * ((k - 1) + 1) + 2 = 3 * k + 2 := by omega
          rw [he1]
          simp
        · rw [bNode_edges]
          have he2 : 3 * ((k - 1) + 2) + 1 = 3 * (k + 1) + 1 := by omega
          rw [he2]
          by_cases h : k + 1 = 0 ∨ k + 1 = n - 1
          · rw [if_pos h]
            simp
          · rw [if_neg h]
            simp

/-- C5 amended-theorem witness at `n = 3` over the integers. -/
theorem C5_construction_structure_witness :
    2 ≤ 3 ∧
    ((initC 3 : Circuit Int).nodes.length = 3 ∧
    (∀ k, k < 3 →
      ((initC 3 : Circuit Int).nodes.getD k (bNode 3 0)).dims.headD 0 = 2 ∧
      (∀ t : List Nat,
        ((initC 3 : Circuit Int).nodes.getD k (bNode 3 0)).entry (0 :: t) = 1 ∧
        ∀ v, ((initC 3 : Circuit Int).nodes.getD k (bNode 3 0)).entry
          ((v + 1) :: t) = 0) ∧
      ((initC 3 : Circuit Int).nodes.getD k (bNode 3 0)).edges.length =
        (if k = 0 ∨ k = 3 - 1 then 2 else 3) ∧
      (initC 3 : Circuit Int).front.getD k 0 =
        ((initC 3 : Circuit Int).nodes.getD k (bNode 3 0)).edges.headD 0 ∧
      (∀ p ∈ (initC 3 : Circuit Int).pairs,
        (initC 3 : Circuit Int).front.getD k 0 ≠ p.1 ∧
        (initC 3 : Circuit Int).front.getD k 0 ≠ p.2) ∧
      (∀ e ∈ ((initC 3 : Circuit Int).nodes.getD k (bNode 3 0)).edges,
        e ≠ (initC 3 : Circuit Int).front.getD k 0 →
        ∃ p ∈ (initC 3 : Circuit Int).pairs, e = p.1 ∨ e = p.2)) ∧
    (∀ k, k + 1 < 3 → ∃ p ∈ (initC 3 : Circuit Int).pairs,
      (p.1 ∈ ((initC 3 : Circuit Int).nodes.getD k (bNode 3 0)).edges ∧
        p.2 ∈ ((initC 3 : Circuit Int).nodes.getD (k + 1) (bNode 3 0)).edges) ∨
      (p.1 ∈ ((initC 3 : Circuit Int).nodes.getD (k + 1) (bNode 3 0)).edges ∧
        p.2 ∈ ((initC 3 : Circuit Int).nodes.getD k (bNode 3 0)).edges))) :=
  ⟨by norm_num, C5_construction_structure 3 (by norm_num)⟩

end TensorCircuit
